import Mathlib

/-!
Verification of the core text-processing and retrieval pipeline of the
docs-retrieval service (src/api/engine.py, src/api/models.py,
src/api/settings.py), against its natural-language specification.

Modelling conventions:
* Python strings are modelled as Lean `String` / `List Char`; `str.split()`,
  `str.strip()` and friends are given explicit executable models over
  `List Char` using a single whitespace predicate `isWS` (the ASCII part of
  Python's whitespace class).
* Python `int` is `Nat` where values are provably non-negative in the source.
* Floating point scores are modelled by exact rationals.
* Filesystem paths are modelled as component lists; `Path.resolve()` is
  modelled as lexical canonicalisation (the symlink-free reading).
* Fallible Python code (raise) is modelled with `Except`.
-/

namespace DocsEngine

/-- ASCII whitespace, the subset of Python's `str.split()` / `str.strip()`
whitespace class that fits in ASCII text. -/
def isWS (c : Char) : Bool :=
  c = ' ' || c = '\t' || c = '\n' || c = '\r' || c = '\x0b' || c = '\x0c'

/-- Model of Python `str.split()` (split on whitespace runs, dropping empties),
working on the character list. -/
def wordsL : List Char → List (List Char)
  | [] => []
  | c :: cs =>
    if isWS c then wordsL cs
    else (c :: cs.takeWhile (fun d => !isWS d)) :: wordsL (cs.dropWhile (fun d => !isWS d))
termination_by l => l.length
decreasing_by
  all_goals simp only [List.length_cons]
  · omega
  · exact Nat.lt_succ_of_le (List.Sublist.length_le (List.dropWhile_sublist _))

/-- Model of Python `" ".join(tokens)` on character lists. -/
def joinSp : List (List Char) → List Char
  | [] => []
  | [w] => w
  | w :: v :: ws => w ++ ' ' :: joinSp (v :: ws)

/-- Model of Python `str.strip()` on a character list. -/
def trimWS (l : List Char) : List Char :=
  ((l.dropWhile isWS).reverse.dropWhile isWS).reverse

/-- Python `text.split()` at the `String` level. -/
def pySplit (s : String) : List String :=
  (wordsL s.data).map String.mk

/-- The body of the `for start in range(0, len(words), step)` loop of
`_chunk_words` (engine.py).  `fuel` bounds the number of iterations; the
caller passes more fuel than the loop can consume, so the loop always ends
through its `break` (the `ws.length ≤ e` test), exactly as in the source. -/
def chunkLoop (ws : List (List Char)) (maxW step : Nat) : Nat → Nat → List (List Char)
  | _, 0 => []
  | start, fuel + 1 =>
    if start < ws.length then
      let e := min (start + maxW) ws.length
      let chunk := trimWS (joinSp ((ws.drop start).take (e - start)))
      let rest := if ws.length ≤ e then [] else chunkLoop ws maxW step (start + step) fuel
      if chunk.isEmpty then rest else chunk :: rest
    else []

/-- Model of `_chunk_words(text, max_words=..., overlap_words=...)`
(engine.py lines 64-78).  When `overlap_words ≥ max_words` the Python
`range` with non-positive step yields no iterations (or raises); settings
validation forbids that configuration, and the model returns `[]` there. -/
def chunkWordsL (cs : List Char) (maxW ow : Nat) : List (List Char) :=
  let ws := wordsL cs
  if ws.length ≤ maxW then [trimWS cs]
  else
    let step := maxW - ow
    if step = 0 then [] else chunkLoop ws maxW step 0 (ws.length + 1)

/-- `_chunk_words` at the `String` level. -/
def chunkWords (text : String) (maxW ow : Nat) : List String :=
  (chunkWordsL text.data maxW ow).map String.mk

/-- Spec-side companion of the chunking loop: the start indices of the
word windows, as described in the spec (successive multiples of the step,
ending with the first window that reaches the last word). -/
def windowStarts (n maxW step : Nat) : Nat → Nat → List Nat
  | _, 0 => []
  | start, fuel + 1 =>
    if n ≤ start + maxW then [start] else start :: windowStarts n maxW step (start + step) fuel

/-- The word slice of window starting at `s` (up to `maxW` words). -/
def windowSlice (ws : List (List Char)) (maxW s : Nat) : List (List Char) :=
  (ws.drop s).take (min (s + maxW) ws.length - s)

/-- Concatenation of chunk word lists with the first `ow` words of every
chunk after the first dropped (the spec's overlap-stripping concatenation). -/
def overlapConcat (ow : Nat) : List (List α) → List α
  | [] => []
  | w :: rest => w ++ rest.flatMap (List.drop ow)

/-- The window starts `_chunk_words` uses on `text` (in the long-text case). -/
def chunkStarts (text : String) (maxW ow : Nat) : List Nat :=
  windowStarts (wordsL text.data).length maxW (maxW - ow) 0 ((wordsL text.data).length + 1)

/-! ### Asset resolution (`_resolve_assets`, engine.py lines 835-855) -/

/-- Python `s.split(ch, 1)[0]`: the characters before the first `ch`. -/
def takeBefore (ch : Char) (l : List Char) : List Char :=
  l.takeWhile (fun c => c ≠ ch)

/-- Python `s.split('/')` on character lists. -/
def splitSlash : List Char → List (List Char)
  | [] => [[]]
  | c :: cs =>
    let r := splitSlash cs
    if c = '/' then [] :: r
    else match r with
      | [] => [[c]]
      | h :: t => (c :: h) :: t

/-- Join components with a separator character. -/
def joinWith (sep : Char) : List (List Char) → List Char
  | [] => []
  | [w] => w
  | w :: v :: ws => w ++ sep :: joinWith sep (v :: ws)

/-- `str(PurePosixPath(p).parent)` for a relative POSIX path: drop empty and
dot components, drop the last component, rejoin (or `.` when nothing is left). -/
def posixParent (p : List Char) : List Char :=
  let comps := (splitSlash p).filter (fun c => !(c.isEmpty || c = ['.']))
  match comps.dropLast with
  | [] => ['.']
  | cs => joinWith '/' cs

/-- `str(PurePosixPath(base) / rel)` for relative `base` and `rel`; exact up
to `posixpath.normpath`, which every caller applies right after. -/
def joinRel (base rel : List Char) : List Char :=
  if base = ['.'] then rel else base ++ '/' :: rel

/-- One component step of `posixpath.normpath`. -/
def npStep (isAbs : Bool) (acc : List (List Char)) (comp : List Char) : List (List Char) :=
  if comp.isEmpty || comp = ['.'] then acc
  else if comp = ['.', '.'] then
    match acc.getLast? with
    | some l => if l = ['.', '.'] then acc ++ [comp] else acc.dropLast
    | none => if isAbs then acc else acc ++ [comp]
  else acc ++ [comp]

/-- Model of `posixpath.normpath`. -/
def normpath (p : List Char) : List Char :=
  if p.isEmpty then ['.']
  else
    let slashes : Nat :=
      if p.take 1 = ['/'] then
        (if p.take 2 = ['/', '/'] && p.take 3 ≠ ['/', '/', '/'] then 2 else 1)
      else 0
    let comps := (splitSlash p).foldl (npStep (slashes ≠ 0)) []
    let result := List.replicate slashes '/' ++ joinWith '/' comps
    if result.isEmpty then ['.'] else result

/-- The `Asset` record (engine.py lines 113-118). -/
structure AssetM where
  src : String
  alt : Option String
  caption : Option String
  path : Option String
deriving DecidableEq

/-- Per-asset body of `_resolve_assets` (engine.py lines 838-854). -/
def resolveAssetOne (baseDir : List Char) (a : AssetM) : AssetM :=
  let clean0 := trimWS (takeBefore '?' (takeBefore '#' a.src.data))
  if clean0.isEmpty
      || ("http://".data.isPrefixOf clean0)
      || ("https://".data.isPrefixOf clean0)
      || ("data:".data.isPrefixOf clean0) then a
  else
    let clean := clean0.map (fun c => if c = '\\' then '/' else c)
    let rel0 := if clean.take 1 = ['/'] then clean.dropWhile (fun c => c = '/')
                else normpath (joinRel baseDir clean)
    let rel := rel0.dropWhile (fun c => c = '.' || c = '/')
    if rel.isEmpty || rel = ['.'] || ("../".data.isPrefixOf rel) || rel = ['.', '.'] then a
    else { a with path := some (String.mk rel) }

/-- Model of `_resolve_assets(assets, file_path=...)`. -/
def resolveAssets (assets : List AssetM) (filePath : String) : List AssetM :=
  let baseDir := posixParent filePath.data
  assets.map (resolveAssetOne baseDir)

/-! ### Runtime asset access (`_safe_resolve_under_root`, `asset_path`) -/

inductive AssetErr where
  | badInput
  | notFound
deriving DecidableEq

/-- `pathlib` parse of the relative path: split on `/`, drop empty and dot
components (`..` is kept). -/
def pathParts (rel : String) : List String :=
  ((splitSlash rel.data).filter (fun c => !(c.isEmpty || c = ['.']))).map String.mk

/-- Lexical model of `(root / rel).resolve()` for a canonical absolute
`root` given as its component list, with no symlinks: names push, `..` pops
(and `..` at the filesystem root stays at the root). -/
def resolveComps (base : List String) (comps : List String) : List String :=
  comps.foldl (fun acc c => if c = ".." then acc.dropLast else acc ++ [c]) base

/-- Model of `_safe_resolve_under_root` (engine.py lines 81-88). -/
def safeResolveUnderRoot (root : List String) (rel : String) :
    Except String (List String) :=
  if rel.data.take 1 = ['/'] || rel.data.take 1 = ['\\'] || rel.data.contains ':' then
    .error "Invalid asset path"
  else
    let target := resolveComps root (pathParts rel)
    if root.isPrefixOf target then .ok target
    else .error "Path traversal attempt"

/-- Model of `asset_path` (engine.py lines 348-357) for a known docset with
root `root`; `files` is the set of regular files of the filesystem model. -/
def assetPath (root : List String) (files : List (List String)) (rel : String) :
    Except AssetErr (List String) :=
  match safeResolveUnderRoot root rel with
  | .error _ => .error .badInput
  | .ok target => if files.contains target then .ok target else .error .notFound

/-- A drive-letter prefix, read literally from the claim's words: a letter
followed by a colon at the start of the path. -/
def hasDrivePrefix (rel : String) : Bool :=
  match rel.data with
  | c :: d :: _ => c.isAlpha && d = ':'
  | _ => false

/-- `asset_path` as claim C2 words it: reject absolute paths, drive-letter
prefixes and leading separators, then reject non-descendants of the root,
then return the join iff it is a regular file. -/
def assetPathClaim (root : List String) (files : List (List String)) (rel : String) :
    Except AssetErr (List String) :=
  if rel.data.take 1 = ['/'] || hasDrivePrefix rel || rel.data.take 1 = ['\\'] then
    .error .badInput
  else
    let target := resolveComps root (pathParts rel)
    if !(root.isPrefixOf target) then .error .badInput
    else if files.contains target then .ok target else .error .notFound

/-- `asset_path` as the amended claim words it: like `assetPathClaim` but
rejecting any path containing a colon anywhere (which subsumes drive-letter
prefixes), matching the source's check. -/
def assetPathAmendedSpec (root : List String) (files : List (List String)) (rel : String) :
    Except AssetErr (List String) :=
  if rel.data.take 1 = ['/'] || rel.data.take 1 = ['\\'] || rel.data.contains ':' then
    .error .badInput
  else
    let target := resolveComps root (pathParts rel)
    if !(root.isPrefixOf target) then .error .badInput
    else if files.contains target then .ok target else .error .notFound

instance {e a : Type _} [DecidableEq e] [DecidableEq a] : DecidableEq (Except e a) := fun
  | Except.ok x, Except.ok y =>
    if h : x = y then isTrue (by rw [h]) else isFalse (by intro hc; cases hc; exact h rfl)
  | Except.error x, Except.error y =>
    if h : x = y then isTrue (by rw [h]) else isFalse (by intro hc; cases hc; exact h rfl)
  | Except.ok _, Except.error _ => isFalse (by intro hc; cases hc)
  | Except.error _, Except.ok _ => isFalse (by intro hc; cases hc)

/-! ### Data model records and the reindex flow (engine.py lines 91-260) -/

structure ChunkM where
  doc_ref : String
  section_ref : String
  chunk_index : Nat
  text : String
deriving DecidableEq

structure DocsetM where
  docset_id : String
  root_path : String
  tags : List String
  keywords : List String
  version : Option String
  enabled : Bool
deriving DecidableEq

structure DocSectionM where
  section_ref : String
  docset_id : String
  file_path : String
  anchor : String
  heading_path : List String
  text : String
  code_blocks : List String
  assets : List AssetM
deriving DecidableEq

/-- `DocsetIndex` with the two third-party numeric members (the BM25
structure and the embeddings matrix) omitted: they are opaque to the
reindex control flow and ride along unchanged. -/
structure DocsetIndexM where
  docset : DocsetM
  sections : List (String × DocSectionM)
  chunks : List ChunkM
  doc_ref_to_chunk : List (String × ChunkM)
deriving DecidableEq

structure IndexStateM where
  revision : Nat
  docsets : List (String × DocsetM)
  indexes : List (String × DocsetIndexM)
  doc_ref_to_docset : List (String × String)
deriving DecidableEq

/-- The mutable fields of `IndexManager`: revision, published state, the two
`lru_cache` contents (modelled as their key lists) and the log of snapshots
written so far. -/
structure ManagerM where
  revision : Nat
  state : Option IndexStateM
  embedQueryCache : List String
  searchCache : List String
  snapshotsSaved : List IndexStateM
deriving DecidableEq

def needsRebuild (docsetIds : Option (List String)) (d : DocsetM) : Bool :=
  match docsetIds with
  | none => true
  | some ids => ids.contains d.docset_id

def prevIndexOf (previous : Option IndexStateM) (id : String) : Option DocsetIndexM :=
  match previous with
  | none => none
  | some st => st.indexes.lookup id

/-- One iteration of the docset loop in `_reindex_impl`: carry the prior
index over (with the fresh `Docset` record) when the docset is not targeted
and a prior index exists, else build it. -/
def buildOne (previous : Option IndexStateM) (build : DocsetM → Except String DocsetIndexM)
    (docsetIds : Option (List String)) (d : DocsetM) : Except String DocsetIndexM :=
  if !needsRebuild docsetIds d then
    match prevIndexOf previous d.docset_id with
    | some prev =>
        .ok { docset := d, sections := prev.sections, chunks := prev.chunks,
              doc_ref_to_chunk := prev.doc_ref_to_chunk }
    | none => build d
  else build d

def buildLoop (previous : Option IndexStateM) (build : DocsetM → Except String DocsetIndexM)
    (docsetIds : Option (List String)) : List DocsetM → Except String (List (String × DocsetIndexM))
  | [] => .ok []
  | d :: ds =>
    match buildOne previous build docsetIds d with
    | .error e => .error e
    | .ok idx =>
      match buildLoop previous build docsetIds ds with
      | .error e => .error e
      | .ok rest => .ok ((d.docset_id, idx) :: rest)

/-- Model of `_reindex_impl` (engine.py lines 206-252).  `build` stands for
`_build_docset_index`; file parsing and embedding are behind it.  All
mutation (revision bump, state replacement, cache clears, snapshot write)
happens only in the `.ok` result, after every build has succeeded, exactly
as in the source where the `with self._state_lock` block and
`_save_snapshot` follow the build loop. -/
def hasUnknownIds (enabled : List DocsetM) (docsetIds : Option (List String)) : Bool :=
  match docsetIds with
  | some ids => ids.any (fun i => !(enabled.map (fun d : DocsetM => d.docset_id)).contains i)
  | none => false

def reindexImpl (m : ManagerM) (registry : List DocsetM)
    (build : DocsetM → Except String DocsetIndexM)
    (docsetIds : Option (List String)) : Except String ManagerM :=
  let enabled := registry.filter (fun d => d.enabled)
  if enabled.isEmpty then .error "No enabled docsets in registry"
  else if hasUnknownIds enabled docsetIds then .error "Unknown or disabled docsets"
  else
    match buildLoop m.state build docsetIds enabled with
    | .error e => .error e
    | .ok indexes =>
      let state : IndexStateM :=
        { revision := m.revision + 1
          docsets := enabled.map (fun d : DocsetM => (d.docset_id, d))
          indexes := indexes
          doc_ref_to_docset :=
            indexes.flatMap (fun p => p.2.chunks.map (fun c : ChunkM => (c.doc_ref, p.1))) }
      .ok { revision := m.revision + 1
            state := some state
            embedQueryCache := []
            searchCache := []
            snapshotsSaved := m.snapshotsSaved ++ [state] }

/-- `reindex` as the manager observes it: a raised exception leaves every
field untouched (the mutations in the source all sit after the point where
the exception propagates). -/
def reindexStep (m : ManagerM) (registry : List DocsetM)
    (build : DocsetM → Except String DocsetIndexM)
    (docsetIds : Option (List String)) : ManagerM × Option String :=
  match reindexImpl m registry build docsetIds with
  | .ok m2 => (m2, none)
  | .error e => (m, some e)

/-! ### SHA-1, the snapshot signature and snapshot load (engine.py 39-46, 262-305) -/

def rotl32 (n : Nat) (x : UInt32) : UInt32 :=
  (x <<< (UInt32.ofNat n)) ||| (x >>> (UInt32.ofNat (32 - n)))

def be64 (n : Nat) : List UInt8 :=
  [UInt8.ofNat (n / 2 ^ 56), UInt8.ofNat (n / 2 ^ 48), UInt8.ofNat (n / 2 ^ 40),
   UInt8.ofNat (n / 2 ^ 32), UInt8.ofNat (n / 2 ^ 24), UInt8.ofNat (n / 2 ^ 16),
   UInt8.ofNat (n / 2 ^ 8), UInt8.ofNat n]

def sha1Pad (msg : List UInt8) : List UInt8 :=
  let z := (119 - (msg.length % 64)) % 64
  msg ++ 0x80 :: (List.replicate z 0 ++ be64 (8 * msg.length))

def toBlocksF : Nat → List UInt8 → List (List UInt8)
  | 0, _ => []
  | _, [] => []
  | fuel + 1, l => l.take 64 :: toBlocksF fuel (l.drop 64)

def toBlocks (l : List UInt8) : List (List UInt8) := toBlocksF (l.length + 1) l

def beWord (a b c d : UInt8) : UInt32 :=
  (a.toUInt32 <<< 24) ||| (b.toUInt32 <<< 16) ||| (c.toUInt32 <<< 8) ||| d.toUInt32

def blockWords : List UInt8 → List UInt32
  | a :: b :: c :: d :: rest => beWord a b c d :: blockWords rest
  | _ => []

def sha1Extend : Nat → List UInt32 → List UInt32
  | 0, w => w
  | fuel + 1, w =>
    let k := w.length
    sha1Extend fuel (w ++ [rotl32 1 ((w.getD (k - 3) 0) ^^^ (w.getD (k - 8) 0)
      ^^^ (w.getD (k - 14) 0) ^^^ (w.getD (k - 16) 0))])

structure SHA1St where
  a : UInt32
  b : UInt32
  c : UInt32
  d : UInt32
  e : UInt32

def sha1F (i : Nat) (b c d : UInt32) : UInt32 :=
  if i < 20 then (b &&& c) ||| ((~~~b) &&& d)
  else if i < 40 then b ^^^ c ^^^ d
  else if i < 60 then (b &&& c) ||| (b &&& d) ||| (c &&& d)
  else b ^^^ c ^^^ d

def sha1K (i : Nat) : UInt32 :=
  if i < 20 then 0x5A827999 else if i < 40 then 0x6ED9EBA1
  else if i < 60 then 0x8F1BBCDC else 0xCA62C1D6

def sha1Round (ws : List UInt32) (st : SHA1St) (i : Nat) : SHA1St :=
  let temp := rotl32 5 st.a + sha1F i st.b st.c st.d + st.e + sha1K i + ws.getD i 0
  ⟨temp, st.a, rotl32 30 st.b, st.c, st.d⟩

def sha1Block (st : SHA1St) (block : List UInt8) : SHA1St :=
  let ws := sha1Extend 64 (blockWords block)
  let f := (List.range 80).foldl (sha1Round ws) st
  ⟨st.a + f.a, st.b + f.b, st.c + f.c, st.d + f.d, st.e + f.e⟩

def wordBytes (x : UInt32) : List UInt8 :=
  [UInt8.ofNat (x.toNat / 2 ^ 24), UInt8.ofNat (x.toNat / 2 ^ 16),
   UInt8.ofNat (x.toNat / 2 ^ 8), UInt8.ofNat x.toNat]

def sha1Bytes (msg : List UInt8) : List UInt8 :=
  let st := (toBlocks (sha1Pad msg)).foldl sha1Block
      ⟨0x67452301, 0xEFCDAB89, 0x98BADCFE, 0x10325476, 0xC3D2E1F0⟩
  wordBytes st.a ++ wordBytes st.b ++ wordBytes st.c ++ wordBytes st.d ++ wordBytes st.e

def hexDigit (n : Nat) : Char := if n < 10 then Char.ofNat (48 + n) else Char.ofNat (87 + n)

/-- `hashlib.sha1(msg).hexdigest()`. -/
def sha1Hex (msg : List UInt8) : String :=
  String.mk ((sha1Bytes msg).flatMap (fun b => [hexDigit (b.toNat / 16), hexDigit (b.toNat % 16)]))

/-- UTF-8 encoding of one character (Python `str.encode("utf-8")`). -/
def utf8Char (c : Char) : List UInt8 :=
  let n := c.toNat
  if n < 0x80 then [UInt8.ofNat n]
  else if n < 0x800 then
    [UInt8.ofNat (0xC0 + n / 64), UInt8.ofNat (0x80 + n % 64)]
  else if n < 0x10000 then
    [UInt8.ofNat (0xE0 + n / 4096), UInt8.ofNat (0x80 + (n / 64) % 64),
     UInt8.ofNat (0x80 + n % 64)]
  else
    [UInt8.ofNat (0xF0 + n / 262144), UInt8.ofNat (0x80 + (n / 4096) % 64),
     UInt8.ofNat (0x80 + (n / 64) % 64), UInt8.ofNat (0x80 + n % 64)]

def utf8 (s : String) : List UInt8 := s.data.flatMap utf8Char

/-- The settings fields `_snapshot_signature` and `_load_snapshot` read.
`docsetsFileAbs` is `str(settings.docsets_file.resolve())` and
`docsetsFileBytes` is `settings.docsets_file.read_bytes()`. -/
structure SettingsM where
  docsetsFileAbs : String
  docsetsFileBytes : List UInt8
  embeddingModel : String
  chunkWords : Nat
  chunkOverlapWords : Nat
  autoIndex : Bool
  hasSnapshotPath : Bool
deriving DecidableEq

/-- The byte string fed to SHA-1 by `_snapshot_signature`: the three
`hasher.update` calls concatenated. -/
def snapshotSignatureInput (s : SettingsM) : List UInt8 :=
  utf8 s.docsetsFileAbs ++ s.docsetsFileBytes
    ++ utf8 ("|" ++ s.embeddingModel ++ "|" ++ toString s.chunkWords
        ++ "|" ++ toString s.chunkOverlapWords)

/-- Model of `_snapshot_signature` (engine.py lines 39-46). -/
def snapshotSignature (s : SettingsM) : String := sha1Hex (snapshotSignatureInput s)

structure IndexSnapshotM where
  schema_version : Nat
  signature : String
  state : IndexStateM
deriving DecidableEq

/-- What sits on disk at the snapshot path when `_load_snapshot` runs. -/
inductive DiskSnapshot where
  | missing
  | unreadable
  | invalidFormat
  | good (snap : IndexSnapshotM)
deriving DecidableEq

/-- Model of `_load_snapshot` (engine.py lines 262-305): `.ok true` means a
state was installed from the snapshot, `.ok false` means "no snapshot"
(caller decides whether to rebuild), `.error` a raised `RuntimeError`. -/
def loadSnapshot (s : SettingsM) (disk : DiskSnapshot) : Except String Bool :=
  if !s.hasSnapshotPath then .ok false
  else
    match disk with
    | .missing => if s.autoIndex then .ok false else .error "Index snapshot not found"
    | .unreadable => if s.autoIndex then .ok false else .error "Index snapshot load failed"
    | .invalidFormat => .error "Index snapshot has invalid format"
    | .good snap =>
      if snap.schema_version ≠ 1 then .error "Index snapshot schema mismatch"
      else if snap.signature ≠ snapshotSignature s then
        (if s.autoIndex then .ok false else .error "Index snapshot signature mismatch")
      else .ok true

inductive ReadyAction where
  | fromSnapshot
  | fullRebuild
deriving DecidableEq

/-- Model of `ensure_ready` (engine.py lines 174-184) from the no-state
start: load the snapshot, else fail when `auto_index` is off, else perform
a full `_reindex_impl(docset_ids=None)`. -/
def ensureReady (s : SettingsM) (disk : DiskSnapshot) : Except String ReadyAction :=
  match loadSnapshot s disk with
  | .error e => .error e
  | .ok true => .ok ReadyAction.fromSnapshot
  | .ok false =>
    if !s.autoIndex then .error "Index not built yet"
    else .ok ReadyAction.fullRebuild

/-! ### Router (`_route_docsets`, engine.py lines 420-457) -/

structure RoutingDecisionM where
  selected_docsets : List String
  reasons : List (String × String)
deriving DecidableEq

def lowerStr (s : String) : String := String.mk (s.data.map Char.toLower)

/-- Python `needle in hay` for strings. -/
def strContains (needle hay : List Char) : Bool :=
  match hay with
  | [] => needle.isEmpty
  | _ :: t => needle.isPrefixOf hay || strContains needle t

def isSubstr (needle hay : String) : Bool := strContains needle.data hay.data

def commaJoin3 (xs : List String) : String := String.intercalate "," (xs.take 3)

/-- The score and reason parts one docset accumulates in the router loop. -/
def routeScoreParts (q : String) (sourceHint : Option String) (depsL : List String)
    (docsetId : String) (docset : DocsetM) : Nat × List String :=
  let hinted := match sourceHint with
    | some h => decide (h ≠ "") && decide (lowerStr h = lowerStr docsetId)
    | none => false
  let kwMatches := docset.keywords.filter (fun k => isSubstr (lowerStr k) q)
  let tagMatches := docset.tags.filter (fun t => isSubstr (lowerStr t) q)
  let depMatches := docset.keywords.filter
      (fun k => depsL.any (fun d => isSubstr (lowerStr k) d))
  let score := (if hinted then 100 else 0) + 10 * kwMatches.length
      + 3 * tagMatches.length + 15 * depMatches.length
  let parts := (if hinted then ["source_hint"] else [])
      ++ (if kwMatches.isEmpty then [] else ["keywords:" ++ commaJoin3 kwMatches])
      ++ (if tagMatches.isEmpty then [] else ["tags:" ++ commaJoin3 tagMatches])
      ++ (if depMatches.isEmpty then [] else ["deps:" ++ commaJoin3 depMatches])
  (score, parts)

def joinSpaceStr (xs : List String) : String := String.intercalate " " xs

/-- `" ".join(reason_parts).strip() or "fallback"`. -/
def reasonOf (parts : List String) : String :=
  let r := String.mk (trimWS (joinSpaceStr parts).data)
  if r = "" then "fallback" else r

/-- Stable insertion into a descending-sorted list: the new element goes
before elements of equal key, preserving original order among ties. -/
def insSortedDesc {α β : Type _} [LinearOrder β] (f : α → β) (x : α) :
    List α → List α
  | [] => [x]
  | y :: ys => if f x < f y then y :: insSortedDesc f x ys else x :: y :: ys

/-- Model of Python's stable `sorted(..., key=f, reverse=True)`. -/
def sortByDesc {α β : Type _} [LinearOrder β] (f : α → β) : List α → List α
  | [] => []
  | x :: xs => insSortedDesc f x (sortByDesc f xs)

/-- The `scores` map of `_route_docsets`, in insertion order. -/
def routeScores (docsets : List (String × DocsetM)) (query : String)
    (sourceHint : Option String) (deps : List String) : List (String × Nat) :=
  docsets.map (fun p =>
    (p.1, (routeScoreParts (lowerStr query) sourceHint (deps.map lowerStr) p.1 p.2).1))

/-- The `reasons` map of `_route_docsets`, in insertion order. -/
def routeReasons (docsets : List (String × DocsetM)) (query : String)
    (sourceHint : Option String) (deps : List String) : List (String × String) :=
  docsets.map (fun p =>
    (p.1, reasonOf (routeScoreParts (lowerStr query) sourceHint (deps.map lowerStr) p.1 p.2).2))

/-- Model of `_route_docsets`; `docsets` is the insertion-ordered id-to-docset
map, `deps` the raw context dependencies. -/
def routeDocsets (docsets : List (String × DocsetM)) (query : String)
    (sourceHint : Option String) (deps : List String) (maxK : Nat) : RoutingDecisionM :=
  let scores := routeScores docsets query sourceHint deps
  let reasons := routeReasons docsets query sourceHint deps
  let selected := ((sortByDesc (fun p => p.2) scores).filter (fun p => 0 < p.2)).map
      (fun p => p.1) |>.take maxK
  let chosen := if selected.isEmpty then (docsets.map (fun p => p.1)).take maxK else selected
  { selected_docsets := chosen
    reasons := chosen.filterMap (fun i => (reasons.lookup i).map (fun r => (i, r))) }

/-! ### Rerank and fusion (`_rerank_candidates`, `_minmax`, `_search_uncached`) -/

structure CandidateM where
  doc_ref : String
  docset : DocsetM
  sec : DocSectionM
  chunk : ChunkM
  bm25_score : ℚ
  vector_score : ℚ
deriving DecidableEq

structure SnippetM where
  text : String
  code_blocks : List String
deriving DecidableEq

structure SearchResultM where
  doc_ref : String
  docset_id : String
  title : String
  heading_path : List String
  file_path : String
  anchor : String
  url : String
  snippet : SnippetM
  score : ℚ
  version : Option String
deriving DecidableEq

/-- Model of `_truncate_words` (engine.py lines 564-568). -/
def truncateWords (text : String) (maxWords : Nat) : String :=
  let ws := wordsL text.data
  if ws.length ≤ maxWords then String.mk (trimWS text.data)
  else String.mk (trimWS (joinSp (ws.take maxWords))) ++ "…"

/-- Model of `_truncate_code` (engine.py lines 590-594). -/
def truncateCode (code : String) (maxChars : Nat) : String :=
  let c := ((code.data.dropWhile (fun x => x = '\n')).reverse.dropWhile
      (fun x => x = '\n')).reverse
  if c.length ≤ maxChars then String.mk c
  else String.mk (((c.take maxChars).reverse.dropWhile isWS).reverse) ++ "\n…"

/-- Model of `_minmax` (engine.py lines 580-587) over exact rationals; the
float literal `1e-6` becomes `1/1000000`. -/
def minmaxQ (values : List ℚ) : List ℚ :=
  match values with
  | [] => []
  | v :: vs =>
    let vmin := vs.foldl min v
    let vmax := vs.foldl max v
    if vmax - vmin < 1 / 1000000 then values.map (fun _ => 0)
    else values.map (fun x => (x - vmin) / (vmax - vmin))

/-- The result record built per candidate in `_rerank_candidates`; the
`file://` URL is the lexical join of the docset root and the file path
(the `Path.resolve()` of the source, symlink-free). -/
def renderResult (score : ℚ) (c : CandidateM) : SearchResultM :=
  { doc_ref := c.doc_ref
    docset_id := c.docset.docset_id
    title := match c.sec.heading_path.getLast? with
      | some t => t
      | none => "Untitled"
    heading_path := c.sec.heading_path
    file_path := c.sec.file_path
    anchor := c.sec.anchor
    url := "file://" ++ c.docset.root_path ++ "/" ++ c.sec.file_path ++ c.sec.anchor
    snippet := { text := truncateWords c.chunk.text 90
                 code_blocks := match c.sec.code_blocks with
                   | [] => []
                   | cb :: _ => [truncateCode cb 1200] }
    score := score
    version := c.docset.version }

/-- Model of `_rerank_candidates` (engine.py lines 523-561): min-max
normalise the two score vectors, take the 0.45/0.55 weighted sum, stable
sort descending, render. -/
def rerankCandidates (cands : List CandidateM) : List SearchResultM :=
  match cands with
  | [] => []
  | _ :: _ =>
    let bmN := minmaxQ (cands.map (fun c => c.bm25_score))
    let vecN := minmaxQ (cands.map (fun c => c.vector_score))
    let scored := List.zipWith
        (fun c bv => ((9 : ℚ) / 20 * bv.1 + (11 : ℚ) / 20 * bv.2, c))
        cands (bmN.zip vecN)
    (sortByDesc (fun p => p.1) scored).map (fun p => renderResult p.1 p.2)

/-- The fused score vector of the candidate pool: elementwise
`0.45 * bm25_norm + 0.55 * vec_norm`. -/
def fusedScores (cands : List CandidateM) : List ℚ :=
  ((minmaxQ (cands.map (fun c => c.bm25_score))).zip
      (minmaxQ (cands.map (fun c => c.vector_score)))).map
    (fun bv => (9 : ℚ) / 20 * bv.1 + (11 : ℚ) / 20 * bv.2)

/-- `k = int(top_k) if top_k else results_top_k` in `_search_uncached`
(engine.py line 401): `None` and `0` are both falsy. -/
def effectiveTopK (topK : Option Nat) (resultsTopK : Nat) : Nat :=
  match topK with
  | some k => if k = 0 then resultsTopK else k
  | none => resultsTopK

/-- `results = reranked[:k]` (engine.py line 402). -/
def searchResults (cands : List CandidateM) (topK : Option Nat) (resultsTopK : Nat) :
    List SearchResultM :=
  (rerankCandidates cands).take (effectiveTopK topK resultsTopK)

/-- The transport-layer bound on the request override: `SearchRequest.top_k`
is declared with `ge=1, le=20` (models.py line 17), so any override that
reaches the engine lies in `[1, 20]`. -/
def topKFieldValid (topK : Option Nat) : Prop :=
  ∀ k, topK = some k → 1 ≤ k ∧ k ≤ 20

/-! ### Per-docset chunk building (`_build_docset_index`, engine.py 681-703) -/

/-- The chunk records `_build_docset_index` accumulates over the parsed
sections (given as `(section_ref, text)` pairs in parse order). -/
def buildSectionChunks (docsetId : String) (sections : List (String × String))
    (maxW ow : Nat) : List ChunkM :=
  sections.flatMap (fun s =>
    ((chunkWords s.2 maxW ow).enum).map (fun ic =>
      { doc_ref := docsetId ++ ":"
          ++ String.mk ((sha1Hex (utf8 (s.1 ++ ":" ++ toString ic.1))).data.take 16)
        section_ref := s.1
        chunk_index := ic.1
        text := ic.2 }))

/-- The zero-chunk guard of `_build_docset_index`. -/
def buildDocsetChunksChecked (docsetId : String) (sections : List (String × String))
    (maxW ow : Nat) : Except String (List ChunkM) :=
  let chunks := buildSectionChunks docsetId sections maxW ow
  if chunks.isEmpty then .error ("No chunks produced for docset " ++ docsetId)
  else .ok chunks

section ListFacts

variable {α : Type _} {p : α → Bool}

theorem takeWhile_append_all {l r : List α} (h : ∀ a ∈ l, p a) :
    (l ++ r).takeWhile p = l ++ r.takeWhile p := by
  induction l with
  | nil => rfl
  | cons a l ih =>
    have ha : p a := h a (by simp)
    simp only [List.cons_append, List.takeWhile_cons_of_pos ha, List.cons.injEq, true_and]
    exact ih (fun x hx => h x (by simp [hx]))

theorem dropWhile_append_all {l r : List α} (h : ∀ a ∈ l, p a) :
    (l ++ r).dropWhile p = r.dropWhile p := by
  induction l with
  | nil => rfl
  | cons a l ih =>
    have ha : p a := h a (by simp)
    simp only [List.cons_append, List.dropWhile_cons_of_pos ha]
    exact ih (fun x hx => h x (by simp [hx]))

theorem takeWhile_nil_of_head {r : List α} (h : ∀ x, r.head? = some x → p x = false) :
    r.takeWhile p = [] := by
  cases r with
  | nil => rfl
  | cons a r => simp [List.takeWhile_cons, h a rfl]

theorem dropWhile_self_of_head {r : List α} (h : ∀ x, r.head? = some x → p x = false) :
    r.dropWhile p = r := by
  cases r with
  | nil => rfl
  | cons a r => simp [List.dropWhile_cons, h a rfl]

end ListFacts

/-- Each token produced by `wordsL` is non-empty and whitespace-free. -/
theorem wordsL_props {l : List Char} :
    ∀ w ∈ wordsL l, w ≠ [] ∧ ∀ c ∈ w, isWS c = false := by
  induction l using wordsL.induct with
  | case1 => intro w hw; simp [wordsL] at hw
  | case2 c cs hc ih =>
    intro w hw
    rw [wordsL, if_pos hc] at hw
    exact ih w hw
  | case3 c cs hc ih =>
    intro w hw
    rw [wordsL, if_neg hc] at hw
    rcases List.mem_cons.1 hw with hw | hw
    · subst hw
      refine ⟨by simp, ?_⟩
      intro d hd
      rcases List.mem_cons.1 hd with hd | hd
      · subst hd; simpa using hc
      · have := List.mem_takeWhile_imp hd
        simpa using this
    · exact ih w hw

/-- Splitting a whitespace-free non-empty token followed by whitespace (or
nothing) peels off exactly that token. -/
theorem wordsL_token_cons {t rest : List Char} (ht : t ≠ [])
    (hall : ∀ c ∈ t, isWS c = false)
    (hr : ∀ x, rest.head? = some x → isWS x = true) :
    wordsL (t ++ rest) = t :: wordsL rest := by
  cases t with
  | nil => exact absurd rfl ht
  | cons c t =>
    have hc : isWS c = false := hall c (by simp)
    rw [List.cons_append, wordsL, if_neg (by simp [hc])]
    have htw : (t ++ rest).takeWhile (fun d => !isWS d) = t := by
      rw [takeWhile_append_all (fun a ha => by simp [hall a (by simp [ha])])]
      rw [takeWhile_nil_of_head (fun x hx => by simp [hr x hx])]
      simp
    have hdw : (t ++ rest).dropWhile (fun d => !isWS d) = rest := by
      rw [dropWhile_append_all (fun a ha => by simp [hall a (by simp [ha])])]
      exact dropWhile_self_of_head (fun x hx => by simp [hr x hx])
    rw [htw, hdw]

theorem wordsL_ws_cons {c : Char} {l : List Char} (hc : isWS c = true) :
    wordsL (c :: l) = wordsL l := by
  rw [wordsL, if_pos hc]

theorem joinSp_ne_nil {ts : List (List Char)} (hne : ts ≠ []) (h : ∀ t ∈ ts, t ≠ []) :
    joinSp ts ≠ [] := by
  match ts with
  | [] => exact absurd rfl hne
  | [t] => exact h t (by simp)
  | t :: v :: ws =>
    have := h t (by simp)
    cases t with
    | nil => exact absurd rfl this
    | cons a t => simp [joinSp]

/-- Splitting the single-space join of non-empty whitespace-free tokens
recovers the tokens (Python `" ".join(ts).split() == ts`). -/
theorem wordsL_joinSp {ts : List (List Char)} (hne : ts ≠ [])
    (h : ∀ t ∈ ts, t ≠ [] ∧ ∀ c ∈ t, isWS c = false) :
    wordsL (joinSp ts) = ts := by
  match ts with
  | [] => exact absurd rfl hne
  | [t] =>
    obtain ⟨ht, hall⟩ := h t (by simp)
    have := @wordsL_token_cons t [] ht hall (fun x hx => by simp at hx)
    simpa [joinSp, wordsL] using this
  | t :: v :: ws =>
    obtain ⟨ht, hall⟩ := h t (by simp)
    show wordsL (t ++ ' ' :: joinSp (v :: ws)) = t :: (v :: ws)
    rw [wordsL_token_cons ht hall (fun x hx => by
      simp only [List.head?_cons, Option.some.injEq] at hx
      rw [← hx]; decide)]
    rw [wordsL_ws_cons (by simp [isWS])]
    exact congrArg _ (wordsL_joinSp (by simp) (fun u hu => h u (by simp [hu])))

theorem trimWS_of_ends {l : List Char}
    (h1 : ∀ x, l.head? = some x → isWS x = false)
    (h2 : ∀ x, l.getLast? = some x → isWS x = false) :
    trimWS l = l := by
  unfold trimWS
  rw [dropWhile_self_of_head h1]
  rw [dropWhile_self_of_head (by simpa using h2)]
  simp

theorem joinSp_head? {ts : List (List Char)} (h : ∀ t ∈ ts, t ≠ []) :
    ∀ x, (joinSp ts).head? = some x → ∃ t ∈ ts, t.head? = some x := by
  match ts with
  | [] => intro x hx; simp [joinSp] at hx
  | [t] => intro x hx; exact ⟨t, by simp, hx⟩
  | t :: v :: ws =>
    intro x hx
    have ht := h t (by simp)
    refine ⟨t, by simp, ?_⟩
    cases t with
    | nil => exact absurd rfl ht
    | cons a t => simpa [joinSp] using hx

theorem joinSp_getLast? {ts : List (List Char)} (h : ∀ t ∈ ts, t ≠ []) :
    ∀ x, (joinSp ts).getLast? = some x → ∃ t ∈ ts, t.getLast? = some x := by
  match ts with
  | [] => intro x hx; simp [joinSp] at hx
  | [t] => intro x hx; exact ⟨t, by simp, hx⟩
  | t :: v :: ws =>
    intro x hx
    have hJ : joinSp (v :: ws) ≠ [] := joinSp_ne_nil (by simp) (fun u hu => h u (by simp [hu]))
    have : (t ++ ' ' :: joinSp (v :: ws)).getLast? = (joinSp (v :: ws)).getLast? := by
      rw [List.getLast?_append]
      cases hj : (joinSp (v :: ws)).getLast? with
      | none => exact absurd (List.getLast?_eq_none_iff.1 (by simpa using hj)) hJ
      | some y => simp [List.getLast?_cons, hj]
    rw [show joinSp (t :: v :: ws) = t ++ ' ' :: joinSp (v :: ws) from rfl, this] at hx
    obtain ⟨u, hu, hux⟩ := joinSp_getLast? (fun u hu => h u (by simp [hu])) x hx
    exact ⟨u, by simp [hu], hux⟩

/-- Stripping the single-space join of non-empty whitespace-free tokens is
the identity (the `.strip()` in the chunk loop is a no-op). -/
theorem trimWS_joinSp {ts : List (List Char)}
    (h : ∀ t ∈ ts, t ≠ [] ∧ ∀ c ∈ t, isWS c = false) :
    trimWS (joinSp ts) = joinSp ts := by
  refine trimWS_of_ends ?_ ?_
  · intro x hx
    obtain ⟨t, ht, htx⟩ := joinSp_head? (fun u hu => (h u hu).1) x hx
    exact (h t ht).2 x (List.mem_of_mem_head? htx)
  · intro x hx
    obtain ⟨t, ht, htx⟩ := joinSp_getLast? (fun u hu => (h u hu).1) x hx
    exact (h t ht).2 x (List.mem_of_mem_getLast? htx)

section ListFacts2

variable {α : Type _} {p : α → Bool}

theorem takeWhile_append_stop {l r : List α} (h : ∀ x, r.head? = some x → p x = false) :
    (l ++ r).takeWhile p = l.takeWhile p := by
  induction l with
  | nil => simpa using takeWhile_nil_of_head h
  | cons a l ih => by_cases pa : p a <;> simp [List.takeWhile_cons, pa, ih]

theorem dropWhile_append_stop {l r : List α} (h : ∀ x, r.head? = some x → p x = false) :
    (l ++ r).dropWhile p = l.dropWhile p ++ r := by
  induction l with
  | nil => simpa using dropWhile_self_of_head h
  | cons a l ih => by_cases pa : p a <;> simp [List.dropWhile_cons, pa, ih]

end ListFacts2

theorem wordsL_nil : wordsL [] = [] := by
  rw [wordsL]

theorem windowStarts_zero {n maxW step start : Nat} :
    windowStarts n maxW step start 0 = [] := rfl

theorem windowStarts_succ {n maxW step start fuel : Nat} :
    windowStarts n maxW step start (fuel + 1)
      = if n ≤ start + maxW then [start]
        else start :: windowStarts n maxW step (start + step) fuel := rfl

theorem chunkLoop_zero {ws : List (List Char)} {maxW step start : Nat} :
    chunkLoop ws maxW step start 0 = [] := rfl

theorem chunkLoop_succ {ws : List (List Char)} {maxW step start fuel : Nat} :
    chunkLoop ws maxW step start (fuel + 1)
      = if start < ws.length then
          let e := min (start + maxW) ws.length
          let chunk := trimWS (joinSp ((ws.drop start).take (e - start)))
          let rest := if ws.length ≤ e then [] else chunkLoop ws maxW step (start + step) fuel
          if chunk.isEmpty then rest else chunk :: rest
        else [] := rfl

theorem wordsL_all_ws {t : List Char} (h : ∀ c ∈ t, isWS c = true) : wordsL t = [] := by
  induction t with
  | nil => exact wordsL_nil
  | cons c cs ih =>
    rw [wordsL_ws_cons (h c (by simp))]
    exact ih (fun x hx => h x (by simp [hx]))

/-- Trailing whitespace does not affect `str.split()`. -/
theorem wordsL_append_ws {m t : List Char} (h : ∀ c ∈ t, isWS c = true) :
    wordsL (m ++ t) = wordsL m := by
  have hhead : ∀ x, t.head? = some x → (!isWS x) = false := by
    intro x hx; simp [h x (List.mem_of_mem_head? hx)]
  induction m using wordsL.induct with
  | case1 => rw [List.nil_append, wordsL_all_ws h, wordsL_nil]
  | case2 c cs hc ih =>
    rw [List.cons_append, wordsL_ws_cons hc, wordsL_ws_cons hc]
    exact ih
  | case3 c cs hc ih =>
    have hc' : isWS c = false := by simpa using hc
    rw [List.cons_append, wordsL, if_neg hc, wordsL, if_neg hc]
    rw [takeWhile_append_stop hhead, dropWhile_append_stop hhead]
    exact congrArg _ ih

/-- Leading whitespace does not affect `str.split()`. -/
theorem wordsL_dropWhile_ws (l : List Char) : wordsL (l.dropWhile isWS) = wordsL l := by
  induction l with
  | nil => rfl
  | cons c cs ih =>
    by_cases hc : isWS c
    · rw [List.dropWhile_cons_of_pos hc, ih, wordsL_ws_cons hc]
    · rw [List.dropWhile_cons_of_neg hc]

/-- `str.strip()` does not affect `str.split()`. -/
theorem wordsL_trimWS (l : List Char) : wordsL (trimWS l) = wordsL l := by
  set m := l.dropWhile isWS with hm
  have h1 : wordsL m = wordsL l := wordsL_dropWhile_ws l
  have hdecomp : m = trimWS l ++ (m.reverse.takeWhile isWS).reverse := by
    unfold trimWS
    rw [← hm]
    conv_lhs => rw [← List.reverse_reverse m, ← List.takeWhile_append_dropWhile (p := isWS) (l := m.reverse)]
    rw [List.reverse_append]
  have hws : ∀ c ∈ (m.reverse.takeWhile isWS).reverse, isWS c = true := by
    intro c hc
    exact List.mem_takeWhile_imp (List.mem_reverse.1 hc)
  rw [← h1, hdecomp, wordsL_append_ws hws]

/-- Every start index produced by `windowStarts` is below the word count. -/
theorem windowStarts_mem_lt {n maxW step : Nat} (hsm : step ≤ maxW) :
    ∀ fuel start, start < n → ∀ s ∈ windowStarts n maxW step start fuel, s < n := by
  intro fuel
  induction fuel with
  | zero => intro start _ s hs; simp [windowStarts] at hs
  | succ fuel ih =>
    intro start hstart s hs
    rw [windowStarts_succ] at hs
    by_cases hle : n ≤ start + maxW
    · rw [if_pos hle] at hs
      simp at hs; omega
    · rw [if_neg hle] at hs
      rcases List.mem_cons.1 hs with hs | hs
      · omega
      · exact ih (start + step) (by omega) s hs

/-- The `i`-th window start is `start + i·step`: windows start at successive
multiples of the step. -/
theorem windowStarts_getElem? {n maxW step : Nat} :
    ∀ fuel start i, i < (windowStarts n maxW step start fuel).length →
      (windowStarts n maxW step start fuel)[i]? = some (start + i * step) := by
  intro fuel
  induction fuel with
  | zero => intro start i h; simp [windowStarts_zero] at h
  | succ fuel ih =>
    intro start i h
    rw [windowStarts_succ] at h ⊢
    by_cases hle : n ≤ start + maxW
    · rw [if_pos hle] at h ⊢
      simp at h
      subst h
      simp
    · rw [if_neg hle] at h ⊢
      cases i with
      | zero => simp
      | succ i =>
        simp only [List.getElem?_cons_succ]
        rw [ih (start + step) i (by simpa using h)]
        exact congrArg some (by ring)

/-- The window list is non-empty, every start but the last leaves words
uncovered, and the last window reaches the last word. -/
theorem windowStarts_last_prop {n maxW step : Nat} (hstep : 1 ≤ step) (hsm : step ≤ maxW) :
    ∀ fuel start, start < n → n ≤ start + fuel →
      windowStarts n maxW step start fuel ≠ [] ∧
      (∀ s ∈ (windowStarts n maxW step start fuel).dropLast, s + maxW < n) ∧
      (∀ s, (windowStarts n maxW step start fuel).getLast? = some s → n ≤ s + maxW) := by
  intro fuel
  induction fuel with
  | zero => intro start h1 h2; omega
  | succ fuel ih =>
    intro start hstart hfuel
    rw [windowStarts_succ]
    by_cases hle : n ≤ start + maxW
    · rw [if_pos hle]
      refine ⟨by simp, by simp, ?_⟩
      intro s hs
      simp at hs; omega
    · rw [if_neg hle]
      obtain ⟨hne, hmid, hlast⟩ := ih (start + step) (by omega) (by omega)
      refine ⟨by simp, ?_, ?_⟩
      · intro s hs
        rw [List.dropLast_cons_of_ne_nil hne] at hs
        rcases List.mem_cons.1 hs with hs | hs
        · omega
        · exact hmid s hs
      · intro s hs
        cases hrest : windowStarts n maxW step (start + step) fuel with
        | nil => exact absurd hrest hne
        | cons r rs =>
          rw [hrest, List.getLast?_cons_cons] at hs
          exact hlast s (by rw [hrest]; exact hs)

/-- The chunk loop of `_chunk_words` produces exactly the joined word
windows described by `windowStarts`: the trailing `.strip()` is a no-op and
no window is empty (hence none is skipped). -/
theorem chunkLoop_eq_windows {cs : List Char} {maxW step : Nat}
    (hmaxW : 1 ≤ maxW) (hsm : step ≤ maxW) :
    ∀ fuel start, start < (wordsL cs).length →
      chunkLoop (wordsL cs) maxW step start fuel
        = (windowStarts (wordsL cs).length maxW step start fuel).map
            (fun s => joinSp (windowSlice (wordsL cs) maxW s)) := by
  intro fuel
  induction fuel with
  | zero => intro start _; rfl
  | succ fuel ih =>
    intro start hstart
    set ws := wordsL cs with hws
    set n := ws.length with hn
    have hslice_ne : windowSlice ws maxW start ≠ [] := by
      have hlen : (windowSlice ws maxW start).length = min (min (start + maxW) n - start) (n - start) := by
        simp [windowSlice, List.length_take, List.length_drop]
      intro hcon
      rw [hcon] at hlen
      simp at hlen
      omega
    have hslice_props : ∀ t ∈ windowSlice ws maxW start, t ≠ [] ∧ ∀ c ∈ t, isWS c = false := by
      intro t ht
      exact wordsL_props t (List.drop_subset _ _ (List.take_subset _ _ ht))
    have hchunk : trimWS (joinSp (windowSlice ws maxW start)) = joinSp (windowSlice ws maxW start) :=
      trimWS_joinSp hslice_props
    have hchunk_ne : (joinSp (windowSlice ws maxW start)).isEmpty = false := by
      have := joinSp_ne_nil hslice_ne (fun t ht => (hslice_props t ht).1)
      cases hj : joinSp (windowSlice ws maxW start) with
      | nil => exact absurd hj this
      | cons a l => rfl
    rw [chunkLoop_succ, windowStarts_succ]
    rw [if_pos hstart]
    by_cases hle : n ≤ start + maxW
    · have he : min (start + maxW) n = n := by omega
      rw [if_pos hle]
      simp only [← hn, he, le_refl, if_true]
      show (if (trimWS (joinSp ((ws.drop start).take (n - start)))).isEmpty then ([] : List (List Char))
            else [trimWS (joinSp ((ws.drop start).take (n - start)))])
          = [joinSp (windowSlice ws maxW start)]
      have : (ws.drop start).take (n - start) = windowSlice ws maxW start := by
        simp [windowSlice, he]
      rw [this, hchunk, hchunk_ne]
      simp
    · have he : min (start + maxW) n = start + maxW := by omega
      rw [if_neg hle]
      simp only [← hn, he]
      have hnope : ¬ n ≤ start + maxW := hle
      rw [if_neg hnope]
      show (if (trimWS (joinSp ((ws.drop start).take (start + maxW - start)))).isEmpty then
              chunkLoop ws maxW step (start + step) fuel
            else trimWS (joinSp ((ws.drop start).take (start + maxW - start)))
                 :: chunkLoop ws maxW step (start + step) fuel)
          = joinSp (windowSlice ws maxW start)
            :: (windowStarts n maxW step (start + step) fuel).map
                (fun s => joinSp (windowSlice ws maxW s))
      have harg : (ws.drop start).take (start + maxW - start) = windowSlice ws maxW start := by
        simp [windowSlice, he]
      rw [harg, hchunk, hchunk_ne]
      simp only [Bool.false_eq_true, if_false]
      rw [ih (start + step) (by omega)]

theorem windowSlice_ne_nil {ws : List (List Char)} {maxW s : Nat}
    (hmaxW : 1 ≤ maxW) (hs : s < ws.length) : windowSlice ws maxW s ≠ [] := by
  have hlen : (windowSlice ws maxW s).length
      = min (min (s + maxW) ws.length - s) (ws.length - s) := by
    simp [windowSlice, List.length_take, List.length_drop]
  intro hcon
  rw [hcon] at hlen
  simp at hlen
  omega

theorem windowSlice_props {cs : List Char} {maxW s : Nat} :
    ∀ t ∈ windowSlice (wordsL cs) maxW s, t ≠ [] ∧ ∀ c ∈ t, isWS c = false := by
  intro t ht
  exact wordsL_props t (List.drop_subset _ _ (List.take_subset _ _ ht))

/-- Splitting a joined window recovers the window's word slice. -/
theorem wordsL_joinSp_windowSlice {cs : List Char} {maxW s : Nat}
    (hmaxW : 1 ≤ maxW) (hs : s < (wordsL cs).length) :
    wordsL (joinSp (windowSlice (wordsL cs) maxW s)) = windowSlice (wordsL cs) maxW s :=
  wordsL_joinSp (windowSlice_ne_nil hmaxW hs) windowSlice_props

theorem map_wordsL_windows {cs : List Char} {maxW : Nat} (hmaxW : 1 ≤ maxW)
    {starts : List Nat} (h : ∀ s ∈ starts, s < (wordsL cs).length) :
    (starts.map (fun s => joinSp (windowSlice (wordsL cs) maxW s))).map wordsL
      = starts.map (fun s => windowSlice (wordsL cs) maxW s) := by
  rw [List.map_map]
  exact List.map_congr_left (fun s hs => wordsL_joinSp_windowSlice hmaxW (h s hs))

/-- After the first window, dropping the overlap from each window and
concatenating yields exactly the tail of the word list. -/
theorem overlapConcat_cons {α : Type _} {ow : Nat} {w : List α} {rest : List (List α)} :
    overlapConcat ow (w :: rest) = w ++ rest.flatMap (List.drop ow) := rfl

theorem windows_drop_concat {ws : List (List Char)} {maxW step ow : Nat}
    (hw : step + ow = maxW) (hstep : 1 ≤ step) :
    ∀ fuel start, start < ws.length → ws.length ≤ start + fuel →
      (windowStarts ws.length maxW step start fuel).flatMap
          (fun s => (windowSlice ws maxW s).drop ow)
        = ws.drop (start + ow) := by
  intro fuel
  induction fuel with
  | zero => intro start h1 h2; omega
  | succ fuel ih =>
    intro start hstart hfuel
    rw [windowStarts_succ]
    by_cases hle : ws.length ≤ start + maxW
    · rw [if_pos hle]
      simp only [List.flatMap_cons, List.flatMap_nil, List.append_nil]
      have hmin : min (start + maxW) ws.length = ws.length := by omega
      rw [windowSlice, hmin]
      have htake : (ws.drop start).take (ws.length - start) = ws.drop start := by
        apply List.take_of_length_le
        simp
      rw [htake, List.drop_drop]
    · rw [if_neg hle]
      simp only [List.flatMap_cons]
      rw [ih (start + step) (by omega) (by omega)]
      have hmin : min (start + maxW) ws.length = start + maxW := by omega
      rw [windowSlice, hmin]
      have harith : start + maxW - start = maxW := by omega
      rw [harith]
      have h1 : ((ws.drop start).take maxW).drop ow = (ws.drop (start + ow)).take step := by
        have h2 := List.take_drop (m := ow) (n := step) (l := ws.drop start)
        rw [List.drop_drop] at h2
        have hms : maxW = ow + step := by omega
        rw [hms]
        exact h2.symm
      rw [h1]
      have h4 : ws.drop (start + step + ow) = (ws.drop (start + ow)).drop step := by
        rw [List.drop_drop]
        congr 1
        omega
      rw [h4]
      exact List.take_append_drop step (ws.drop (start + ow))

/-- For a long text, `_chunk_words` produces exactly the windows described
by `windowStarts` (each window joined with single spaces). -/
theorem chunkWordsL_eq_windows {cs : List Char} {maxW ow : Nat}
    (how : ow < maxW) (hbig : maxW < (wordsL cs).length) :
    chunkWordsL cs maxW ow
      = (windowStarts (wordsL cs).length maxW (maxW - ow) 0 ((wordsL cs).length + 1)).map
          (fun s => joinSp (windowSlice (wordsL cs) maxW s)) := by
  simp only [chunkWordsL]
  rw [if_neg (by omega), if_neg (by omega)]
  exact chunkLoop_eq_windows (by omega) (by omega) _ 0 (by omega)

/-- Word-level chunk coverage: overlap-stripped concatenation of chunk
word lists reproduces the text's word list. -/
theorem chunk_coverage_L {cs : List Char} {maxW ow : Nat} (how : ow < maxW) :
    overlapConcat ow ((chunkWordsL cs maxW ow).map wordsL) = wordsL cs := by
  by_cases hle : (wordsL cs).length ≤ maxW
  · simp only [chunkWordsL, if_pos hle, List.map_cons, List.map_nil]
    rw [wordsL_trimWS]
    simp [overlapConcat]
  · push_neg at hle
    rw [chunkWordsL_eq_windows how hle]
    have hstep1 : 1 ≤ maxW - ow := by omega
    have hsm : maxW - ow ≤ maxW := by omega
    rw [windowStarts_succ, if_neg (by omega)]
    rw [List.map_cons, List.map_cons]
    have hrest_lt : ∀ s ∈ windowStarts (wordsL cs).length maxW (maxW - ow)
        (0 + (maxW - ow)) (wordsL cs).length, s < (wordsL cs).length :=
      windowStarts_mem_lt hsm _ _ (by omega)
    rw [overlapConcat_cons]
    rw [map_wordsL_windows (by omega) hrest_lt]
    rw [wordsL_joinSp_windowSlice (by omega) (by omega)]
    rw [List.flatMap_map]
    have hconc := @windows_drop_concat (wordsL cs) maxW (maxW - ow) ow
        (by omega) (by omega)
        (wordsL cs).length (0 + (maxW - ow)) (by omega) (by omega)
    rw [hconc]
    have hslice0 : windowSlice (wordsL cs) maxW 0 = (wordsL cs).take maxW := by
      have hmin : min (0 + maxW) (wordsL cs).length = maxW := by omega
      simp [windowSlice, hmin]
    rw [hslice0]
    have harw : 0 + (maxW - ow) + ow = maxW := by omega
    rw [harw]
    exact List.take_append_drop maxW (wordsL cs)

theorem overlapConcat_map {α β : Type _} {f : α → β} (ow : Nat) (ls : List (List α)) :
    overlapConcat ow (ls.map (List.map f)) = (overlapConcat ow ls).map f := by
  cases ls with
  | nil => rfl
  | cons w rest =>
    simp only [List.map_cons, overlapConcat, List.map_append]
    congr 1
    induction rest with
    | nil => rfl
    | cons v vs ih =>
      simp only [List.map_cons, List.flatMap_cons, List.map_append, ih]
      congr 1
      exact (List.map_drop f v ow).symm

/-! ### Chunking claims -/

theorem pySplit_length (s : String) : (pySplit s).length = (wordsL s.data).length := by
  simp [pySplit]

theorem chunkWords_eq_windows_str (text : String) (maxW ow : Nat)
    (how : ow < maxW) (hbig : maxW < (wordsL text.data).length) :
    chunkWords text maxW ow
      = (chunkStarts text maxW ow).map
          (fun s => String.mk (joinSp (windowSlice (wordsL text.data) maxW s))) := by
  unfold chunkWords chunkStarts
  rw [chunkWordsL_eq_windows how hbig, List.map_map]
  rfl

theorem chunkWords_short (text : String) (maxW ow : Nat)
    (hle : (pySplit text).length ≤ maxW) :
    chunkWords text maxW ow = [String.mk (trimWS text.data)] := by
  rw [pySplit_length] at hle
  unfold chunkWords
  simp only [chunkWordsL, if_pos hle]
  rfl

theorem chunkWords_ne_nil (text : String) (maxW ow : Nat) (how : ow < maxW) :
    chunkWords text maxW ow ≠ [] := by
  by_cases hle : (wordsL text.data).length ≤ maxW
  · rw [chunkWords_short text maxW ow (by rw [pySplit_length]; exact hle)]
    simp
  · push_neg at hle
    rw [chunkWords_eq_windows_str text maxW ow how hle]
    have hne : chunkStarts text maxW ow ≠ [] := by
      unfold chunkStarts
      exact (windowStarts_last_prop (by omega) (by omega) _ 0 (by omega) (by omega)).1
    intro hcon
    exact hne (List.map_eq_nil_iff.1 hcon)

/-- Claim C5: with `chunk_words = 10`, `overlap_words = 3`, every 25-word
text chunks into exactly the four word windows `[0,10)`, `[7,17)`,
`[14,24)`, `[21,25)`; in general, for a text with more than `max_words`
words, the chunks are the word windows whose starts are successive
multiples of `max_words - overlap_words`, each window taking up to
`max_words` words joined by single spaces, the loop ending with the first
window that reaches the last word (windows are never empty, so none is
skipped). -/
theorem claim_C5_overlap_discipline :
    (∀ text : String, (pySplit text).length = 25 →
        (chunkWords text 10 3).length = 4 ∧
        (chunkWords text 10 3).map pySplit
          = [(pySplit text).take 10,
             ((pySplit text).drop 7).take 10,
             ((pySplit text).drop 14).take 10,
             ((pySplit text).drop 21).take 4]) ∧
    (∀ (text : String) (maxW ow : Nat), ow < maxW → maxW < (pySplit text).length →
        chunkWords text maxW ow
            = (chunkStarts text maxW ow).map
                (fun s => String.mk (joinSp (windowSlice (wordsL text.data) maxW s))) ∧
        (∀ i, i < (chunkStarts text maxW ow).length →
            (chunkStarts text maxW ow)[i]? = some (i * (maxW - ow))) ∧
        chunkStarts text maxW ow ≠ [] ∧
        (∀ s ∈ (chunkStarts text maxW ow).dropLast, s + maxW < (pySplit text).length) ∧
        (∀ s, (chunkStarts text maxW ow).getLast? = some s →
            (pySplit text).length ≤ s + maxW)) := by
  have general : ∀ (text : String) (maxW ow : Nat), ow < maxW →
      maxW < (pySplit text).length →
      chunkWords text maxW ow
          = (chunkStarts text maxW ow).map
              (fun s => String.mk (joinSp (windowSlice (wordsL text.data) maxW s))) ∧
      (∀ i, i < (chunkStarts text maxW ow).length →
          (chunkStarts text maxW ow)[i]? = some (i * (maxW - ow))) ∧
      chunkStarts text maxW ow ≠ [] ∧
      (∀ s ∈ (chunkStarts text maxW ow).dropLast, s + maxW < (pySplit text).length) ∧
      (∀ s, (chunkStarts text maxW ow).getLast? = some s →
          (pySplit text).length ≤ s + maxW) := by
    intro text maxW ow how hbig
    rw [pySplit_length] at hbig
    obtain ⟨hne, hmid, hlast⟩ :=
      @windowStarts_last_prop (wordsL text.data).length maxW
        (maxW - ow) (by omega) (by omega) ((wordsL text.data).length + 1) 0
        (by omega) (by omega)
    refine ⟨chunkWords_eq_windows_str text maxW ow how hbig, ?_, hne, ?_, ?_⟩
    · intro i hi
      have := @windowStarts_getElem? (wordsL text.data).length maxW
        (maxW - ow) ((wordsL text.data).length + 1) 0 i hi
      simpa [chunkStarts] using this
    · intro s hs
      rw [pySplit_length]
      exact hmid s hs
    · intro s hs
      rw [pySplit_length]
      exact hlast s hs
  refine ⟨?_, general⟩
  intro text h25
  have hlen : (wordsL text.data).length = 25 := by rw [← pySplit_length]; exact h25
  have hbig : (10 : Nat) < (pySplit text).length := by omega
  obtain ⟨heq, _⟩ := general text 10 3 (by omega) hbig
  have hstarts : chunkStarts text 10 3 = [0, 7, 14, 21] := by
    unfold chunkStarts
    rw [hlen]
    decide
  rw [heq, hstarts]
  have hws : ∀ s : Nat, s < 25 →
      pySplit (String.mk (joinSp (windowSlice (wordsL text.data) 10 s)))
        = (windowSlice (wordsL text.data) 10 s).map String.mk := by
    intro s hs
    show (wordsL (joinSp (windowSlice (wordsL text.data) 10 s))).map String.mk = _
    rw [wordsL_joinSp_windowSlice (by omega) (by omega)]
  constructor
  · simp
  · simp only [List.map_cons, List.map_nil]
    rw [hws 0 (by omega), hws 7 (by omega), hws 14 (by omega), hws 21 (by omega)]
    unfold windowSlice
    rw [hlen]
    norm_num [pySplit, List.map_take, List.map_drop]

theorem claim_C5_witness :
    ((pySplit "w1 w2 w3 w4 w5 w6 w7 w8 w9 w10 w11 w12 w13 w14 w15 w16 w17 w18 w19 w20 w21 w22 w23 w24 w25").length = 25 ∧
      (chunkWords "w1 w2 w3 w4 w5 w6 w7 w8 w9 w10 w11 w12 w13 w14 w15 w16 w17 w18 w19 w20 w21 w22 w23 w24 w25" 10 3).length = 4) ∧
    (1 < 2 ∧ 2 < (pySplit "a b c").length ∧
      chunkWords "a b c" 2 1
        = (chunkStarts "a b c" 2 1).map
            (fun s => String.mk (joinSp (windowSlice (wordsL "a b c".data) 2 s)))) := by
  have h25 : (pySplit "w1 w2 w3 w4 w5 w6 w7 w8 w9 w10 w11 w12 w13 w14 w15 w16 w17 w18 w19 w20 w21 w22 w23 w24 w25").length = 25 := by
    simp +decide [pySplit, wordsL]
  have hlen : 2 < (pySplit "a b c").length := by
    simp +decide [pySplit, wordsL]
  exact ⟨⟨h25, (claim_C5_overlap_discipline.1 _ h25).1⟩,
    ⟨by omega, hlen, (claim_C5_overlap_discipline.2 "a b c" 2 1 (by omega) hlen).1⟩⟩

/-- Claim C6: for `0 ≤ overlap_words < max_words`, concatenating the chunk
word lists with the first `overlap_words` words of every chunk after the
first dropped reproduces exactly the whitespace-split word sequence of the
text: no word is dropped and none duplicated beyond the declared overlap. -/
theorem claim_C6_chunk_coverage (text : String) (maxW ow : Nat) (how : ow < maxW) :
    overlapConcat ow ((chunkWords text maxW ow).map pySplit) = pySplit text := by
  have hmain := @chunk_coverage_L text.data maxW ow how
  have h1 : (chunkWords text maxW ow).map pySplit
      = ((chunkWordsL text.data maxW ow).map wordsL).map (List.map String.mk) := by
    simp only [chunkWords, List.map_map]
    rfl
  rw [h1, overlapConcat_map, hmain]
  rfl

theorem claim_C6_witness :
    1 < 2 ∧ overlapConcat 1 ((chunkWords "a b c" 2 1).map pySplit) = pySplit "a b c" :=
  ⟨by omega, claim_C6_chunk_coverage "a b c" 2 1 (by omega)⟩

/-- Claim C10: `_chunk_words` never returns an empty chunk list: any text of
at most `max_words` words (whitespace-only and empty included) yields the
single chunk `text.strip()`; in particular the empty text yields one empty
chunk.  Hence every parsed section contributes at least one chunk to the
docset index (an empty-text section is indexed with one empty-text chunk),
and the zero-chunk build error fires exactly when no sections were parsed. -/
theorem claim_C10_nonempty_chunks :
    (∀ (text : String) (maxW ow : Nat), (pySplit text).length ≤ maxW →
        chunkWords text maxW ow = [String.mk (trimWS text.data)]) ∧
    (∀ maxW ow : Nat, chunkWords "" maxW ow = [""]) ∧
    (∀ (text : String) (maxW ow : Nat), ow < maxW → chunkWords text maxW ow ≠ []) ∧
    (∀ (docsetId ref : String) (maxW ow : Nat),
        (buildSectionChunks docsetId [(ref, "")] maxW ow).map (fun c => c.text) = [""]) ∧
    (∀ (docsetId : String) (sections : List (String × String)) (maxW ow : Nat),
        ow < maxW →
        (buildSectionChunks docsetId sections maxW ow = [] ↔ sections = []) ∧
        (∀ e, buildDocsetChunksChecked docsetId sections maxW ow = Except.error e →
            sections = []) ∧
        (sections = [] → buildDocsetChunksChecked docsetId sections maxW ow
            = Except.error ("No chunks produced for docset " ++ docsetId))) := by
  have hshort := chunkWords_short
  have hempty : ∀ maxW ow : Nat, chunkWords "" maxW ow = [""] := by
    intro maxW ow
    have : (pySplit "").length ≤ maxW := by
      simp [pySplit, wordsL_nil]
    rw [hshort "" maxW ow this]
    rfl
  have hne := chunkWords_ne_nil
  refine ⟨hshort, hempty, hne, ?_, ?_⟩
  · intro docsetId ref maxW ow
    simp [buildSectionChunks, hempty maxW ow, List.enum]
  · intro docsetId sections maxW ow how
    have hiff : buildSectionChunks docsetId sections maxW ow = [] ↔ sections = [] := by
      constructor
      · intro h
        cases hsec : sections with
        | nil => rfl
        | cons s ss =>
          exfalso
          rw [hsec] at h
          simp only [buildSectionChunks, List.flatMap_cons] at h
          rcases List.append_eq_nil.1 h with ⟨h1, _⟩
          have henum := List.map_eq_nil_iff.1 h1
          have := hne s.2 maxW ow how
          exact this (by simpa using henum)
      · intro h
        rw [h]
        rfl
    refine ⟨hiff, ?_, ?_⟩
    · intro e he
      by_cases hch : buildSectionChunks docsetId sections maxW ow = []
      · exact hiff.1 hch
      · exfalso
        simp only [buildDocsetChunksChecked] at he
        rw [List.isEmpty_eq_false_iff_exists_mem.2 ?_] at he
        · simp at he
        · cases hc : buildSectionChunks docsetId sections maxW ow with
          | nil => exact absurd hc hch
          | cons a l => exact ⟨a, by simp [hc]⟩
    · intro h
      rw [h]
      rfl

theorem claim_C10_witness :
    ((pySplit "  x  ").length ≤ 5 ∧ chunkWords "  x  " 5 2 = [String.mk (trimWS "  x  ".data)]) ∧
    (2 < 5 ∧ chunkWords "one two three four five six" 5 2 ≠ []) ∧
    (2 < 5 ∧ (buildSectionChunks "ds" [("s1", "hello world")] 5 2 = []
        ↔ [("s1", "hello world")] = ([] : List (String × String)))) :=
  ⟨⟨by simp +decide [pySplit, wordsL],
    claim_C10_nonempty_chunks.1 "  x  " 5 2 (by simp +decide [pySplit, wordsL])⟩,
   ⟨by omega, (claim_C10_nonempty_chunks.2.2.1) "one two three four five six" 5 2 (by omega)⟩,
   ⟨by omega, ((claim_C10_nonempty_chunks.2.2.2.2) "ds" [("s1", "hello world")] 5 2 (by omega)).1⟩⟩

/-! ### Asset claims -/

/-- Claim C1 (code bug): `_resolve_assets` is meant to null out any src that
would land outside the docset root, but (i) the leading-slash branch skips
normalisation entirely, so src `/a/../../b` in `docs/page.html` produces
`path = a/../../b`, whose POSIX normalisation `../b` lies outside the root;
and (ii) `lstrip("./")` strips every leading dot and slash, so the
`../`-prefix guard can never fire: src `../../x` in a root-level file
produces `path = x` although the normalised join `../../x` begins with
`../`. -/
theorem claim_C1_asset_safety_bug :
    resolveAssets [⟨"/a/../../b", none, none, none⟩] "docs/page.html"
        = [⟨"/a/../../b", none, none, some "a/../../b"⟩] ∧
    normpath "a/../../b".data = "../b".data ∧
    ("../".data.isPrefixOf (normpath "a/../../b".data)) = true ∧
    resolveAssets [⟨"../../x", none, none, none⟩] "page.html"
        = [⟨"../../x", none, none, some "x"⟩] ∧
    normpath (joinRel (posixParent "page.html".data) "../../x".data) = "../../x".data := by
  exact ⟨by decide, by decide, by decide, by decide, by decide⟩

/-- Claim C2 (amended): `asset_path` rejects with BadInput any relative path
that begins with `/` or `\`, or contains a colon anywhere (the source checks
`":" in relative_path`, which subsumes drive-letter prefixes), and any path
whose canonicalised join with the root is neither the root nor one of its
descendants; a path passing those checks returns the canonicalised join iff
it is a regular file, and signals not-found otherwise. -/
theorem claim_C2_asset_path_amended (root : List String) (files : List (List String))
    (rel : String) :
    assetPath root files rel = assetPathAmendedSpec root files rel ∧
    (assetPath root files rel = Except.error AssetErr.badInput ↔
      (rel.data.take 1 = ['/'] ∨ rel.data.take 1 = ['\\'] ∨ rel.data.contains ':' = true ∨
        root.isPrefixOf (resolveComps root (pathParts rel)) = false)) ∧
    (∀ t, assetPath root files rel = Except.ok t ↔
      (rel.data.take 1 ≠ ['/'] ∧ rel.data.take 1 ≠ ['\\'] ∧ rel.data.contains ':' = false ∧
        t = resolveComps root (pathParts rel) ∧ root.isPrefixOf t = true ∧
        files.contains t = true)) ∧
    (assetPath root files rel = Except.error AssetErr.notFound ↔
      (rel.data.take 1 ≠ ['/'] ∧ rel.data.take 1 ≠ ['\\'] ∧ rel.data.contains ':' = false ∧
        root.isPrefixOf (resolveComps root (pathParts rel)) = true ∧
        files.contains (resolveComps root (pathParts rel)) = false)) := by
  by_cases hR : (rel.data.take 1 = ['/'] || rel.data.take 1 = ['\\'] || rel.data.contains ':') = true
  · have hap : assetPath root files rel = Except.error AssetErr.badInput := by
      unfold assetPath safeResolveUnderRoot
      rw [if_pos hR]
    have ham : assetPathAmendedSpec root files rel = Except.error AssetErr.badInput := by
      unfold assetPathAmendedSpec
      rw [if_pos hR]
    have hor : rel.data.take 1 = ['/'] ∨ rel.data.take 1 = ['\\'] ∨ rel.data.contains ':' = true := by
      have h := hR
      simp only [Bool.or_eq_true, decide_eq_true_eq] at h
      rcases h with (h | h) | h
      · exact Or.inl h
      · exact Or.inr (Or.inl h)
      · exact Or.inr (Or.inr h)
    refine ⟨by rw [hap, ham], ?_, ?_, ?_⟩
    · rw [hap]
      refine iff_of_true rfl ?_
      rcases hor with h | h | h
      · exact Or.inl h
      · exact Or.inr (Or.inl h)
      · exact Or.inr (Or.inr (Or.inl h))
    · intro t
      rw [hap]
      refine iff_of_false (by simp) ?_
      rintro ⟨ha, hb, hc, -⟩
      rcases hor with h | h | h
      · exact ha h
      · exact hb h
      · rw [h] at hc; cases hc
    · rw [hap]
      refine iff_of_false (by simp) ?_
      rintro ⟨ha, hb, hc, -⟩
      rcases hor with h | h | h
      · exact ha h
      · exact hb h
      · rw [h] at hc; cases hc
  · have hnr : ¬ rel.data.take 1 = ['/'] ∧ ¬ rel.data.take 1 = ['\\'] ∧
        rel.data.contains ':' = false := by
      simp only [Bool.or_eq_true, decide_eq_true_eq, not_or] at hR
      exact ⟨hR.1.1, hR.1.2, by simpa using hR.2⟩
    by_cases hP : root.isPrefixOf (resolveComps root (pathParts rel)) = true
    · have hsr : safeResolveUnderRoot root rel
          = Except.ok (resolveComps root (pathParts rel)) := by
        unfold safeResolveUnderRoot
        rw [if_neg hR]
        simp only [hP, if_true]
      by_cases hF : files.contains (resolveComps root (pathParts rel)) = true
      · have hap : assetPath root files rel
            = Except.ok (resolveComps root (pathParts rel)) := by
          unfold assetPath
          rw [hsr]
          show (if files.contains (resolveComps root (pathParts rel)) = true then _ else _) = _
          rw [if_pos hF]
        have ham : assetPathAmendedSpec root files rel
            = Except.ok (resolveComps root (pathParts rel)) := by
          unfold assetPathAmendedSpec
          rw [if_neg hR]
          simp only [hP, Bool.not_true]
          rw [if_neg (by simp)]
          rw [if_pos hF]
        refine ⟨by rw [hap, ham], ?_, ?_, ?_⟩
        · rw [hap]
          exact iff_of_false (by simp) (by
            rintro (h | h | h | h)
            · exact hnr.1 h
            · exact hnr.2.1 h
            · rw [hnr.2.2] at h; cases h
            · rw [hP] at h; cases h)
        · intro t
          rw [hap]
          constructor
          · intro ht
            have htv : t = resolveComps root (pathParts rel) := by
              cases ht; rfl
            subst htv
            exact ⟨hnr.1, hnr.2.1, hnr.2.2, rfl, hP, hF⟩
          · rintro ⟨-, -, -, htv, -, -⟩
            subst htv
            rfl
        · rw [hap]
          exact iff_of_false (by simp) (by
            rintro ⟨-, -, -, -, hcf⟩
            rw [hF] at hcf; cases hcf)
      · have hFf : files.contains (resolveComps root (pathParts rel)) = false := by
          simpa using hF
        have hap : assetPath root files rel = Except.error AssetErr.notFound := by
          unfold assetPath
          rw [hsr]
          show (if files.contains (resolveComps root (pathParts rel)) = true then _ else _) = _
          rw [if_neg (by rw [hFf]; simp)]
        have ham : assetPathAmendedSpec root files rel = Except.error AssetErr.notFound := by
          unfold assetPathAmendedSpec
          rw [if_neg hR]
          simp only [hP, Bool.not_true]
          rw [if_neg (by simp)]
          rw [if_neg (by rw [hFf]; simp)]
        refine ⟨by rw [hap, ham], ?_, ?_, ?_⟩
        · rw [hap]
          exact iff_of_false (by simp) (by
            rintro (h | h | h | h)
            · exact hnr.1 h
            · exact hnr.2.1 h
            · rw [hnr.2.2] at h; cases h
            · rw [hP] at h; cases h)
        · intro t
          rw [hap]
          exact iff_of_false (by simp) (by
            rintro ⟨-, -, -, htv, -, hcf⟩
            subst htv
            rw [hFf] at hcf; cases hcf)
        · rw [hap]
          exact iff_of_true rfl ⟨hnr.1, hnr.2.1, hnr.2.2, hP, hFf⟩
    · have hPf : root.isPrefixOf (resolveComps root (pathParts rel)) = false := by
        cases h : root.isPrefixOf (resolveComps root (pathParts rel))
        · rfl
        · exact absurd h hP
      have hap : assetPath root files rel = Except.error AssetErr.badInput := by
        unfold assetPath safeResolveUnderRoot
        rw [if_neg hR]
        simp [hPf]
      have ham : assetPathAmendedSpec root files rel = Except.error AssetErr.badInput := by
        unfold assetPathAmendedSpec
        rw [if_neg hR]
        simp [hPf]
      refine ⟨by rw [hap, ham], ?_, ?_, ?_⟩
      · rw [hap]
        exact iff_of_true rfl (Or.inr (Or.inr (Or.inr hPf)))
      · intro t
        rw [hap]
        exact iff_of_false (by simp) (by
          rintro ⟨-, -, -, htv, hpt, -⟩
          subst htv
          rw [hPf] at hpt; cases hpt)
      · rw [hap]
        exact iff_of_false (by simp) (by
          rintro ⟨-, -, -, hpt, -⟩
          rw [hPf] at hpt; cases hpt)

/-- Claim C2, counterexample to the claim as frozen: `a:b` is not absolute,
has no drive-letter prefix and no leading separator, its canonical join
lies under the root and is a regular file there, so the claim requires
`asset_path` to return it; the source rejects it (any colon is rejected). -/
theorem claim_C2_counterexample :
    hasDrivePrefix "img/a:b" = false ∧
    ("img/a:b".data.take 1 ≠ ['/'] ∧ "img/a:b".data.take 1 ≠ ['\\']) ∧
    ["srv", "docs"].isPrefixOf (resolveComps ["srv", "docs"] (pathParts "img/a:b")) = true ∧
    assetPathClaim ["srv", "docs"] [["srv", "docs", "img", "a:b"]] "img/a:b"
        = Except.ok ["srv", "docs", "img", "a:b"] ∧
    assetPath ["srv", "docs"] [["srv", "docs", "img", "a:b"]] "img/a:b"
        = Except.error AssetErr.badInput := by
  exact ⟨by decide, by decide, by decide, by decide, by decide⟩

theorem claim_C2_witness :
    assetPath ["r"] [["r", "img", "a.png"]] "img/a.png"
        = assetPathAmendedSpec ["r"] [["r", "img", "a.png"]] "img/a.png" ∧
    assetPath ["r"] [["r", "img", "a.png"]] "img/a.png" = Except.ok ["r", "img", "a.png"] ∧
    assetPath ["r"] [["r", "img", "a.png"]] "../etc/passwd"
        = Except.error AssetErr.badInput :=
  ⟨(claim_C2_asset_path_amended ["r"] [["r", "img", "a.png"]] "img/a.png").1,
   ((claim_C2_asset_path_amended ["r"] [["r", "img", "a.png"]] "img/a.png").2.2.1
      ["r", "img", "a.png"]).2 (by decide),
   ((claim_C2_asset_path_amended ["r"] [["r", "img", "a.png"]] "../etc/passwd").2.1).2
      (by decide)⟩

/-! ### Reindex atomicity (claim C3) -/

theorem buildOne_error {previous : Option IndexStateM}
    {build : DocsetM → Except String DocsetIndexM} {docsetIds : Option (List String)}
    {d : DocsetM} {e : String}
    (hinv : needsRebuild docsetIds d = true ∨ prevIndexOf previous d.docset_id = none)
    (hb : build d = Except.error e) :
    buildOne previous build docsetIds d = Except.error e := by
  unfold buildOne
  rcases hinv with hinv | hinv
  · rw [hinv]
    simpa using hb
  · by_cases hn : needsRebuild docsetIds d
    · rw [hn]; simpa using hb
    · simp only [hn]
      rw [hinv]
      simpa using hb

theorem buildLoop_error {previous : Option IndexStateM}
    {build : DocsetM → Except String DocsetIndexM} {docsetIds : Option (List String)}
    {d : DocsetM} :
    ∀ {l : List DocsetM}, d ∈ l →
      (∀ idx, buildOne previous build docsetIds d ≠ Except.ok idx) →
      ∃ msg, buildLoop previous build docsetIds l = Except.error msg := by
  intro l
  induction l with
  | nil => intro h; simp at h
  | cons x xs ih =>
    intro hmem hno
    cases hx : buildOne previous build docsetIds x with
    | error msg => exact ⟨msg, by simp [buildLoop, hx]⟩
    | ok idx =>
      rcases List.mem_cons.1 hmem with hd | hd
      · subst hd
        exact absurd hx (hno idx)
      · obtain ⟨msg, hmsg⟩ := ih hd hno
        refine ⟨msg, ?_⟩
        simp [buildLoop, hx, hmsg]

theorem buildLoop_ok_mem {previous : Option IndexStateM}
    {build : DocsetM → Except String DocsetIndexM} {docsetIds : Option (List String)} :
    ∀ {l : List DocsetM} {res}, buildLoop previous build docsetIds l = Except.ok res →
      ∀ d ∈ l, ∃ idx, buildOne previous build docsetIds d = Except.ok idx := by
  intro l
  induction l with
  | nil => intro res _ d hd; simp at hd
  | cons x xs ih =>
    intro res hok d hd
    cases hx : buildOne previous build docsetIds x with
    | error msg => rw [buildLoop, hx] at hok; simp at hok
    | ok idx =>
      rw [buildLoop, hx] at hok
      cases hxs : buildLoop previous build docsetIds xs with
      | error msg => rw [hxs] at hok; simp at hok
      | ok rest =>
        rcases List.mem_cons.1 hd with hd | hd
        · exact ⟨idx, hd ▸ hx⟩
        · exact ih hxs d hd

/-- Claim C3: if building any docset that the reindex has to build (targeted,
or untargeted with no prior index to carry over) raises, the whole
`_reindex_impl` raises: no new state is published, the revision, both
caches and the snapshot log are exactly as before.  Conversely a successful
reindex implies every enabled docset was built or carried over successfully. -/
theorem claim_C3_no_partial_publish :
    (∀ (m : ManagerM) (registry : List DocsetM)
        (build : DocsetM → Except String DocsetIndexM)
        (docsetIds : Option (List String)) (d : DocsetM) (e : String),
      d ∈ registry.filter (fun x => x.enabled) →
      (needsRebuild docsetIds d = true ∨ prevIndexOf m.state d.docset_id = none) →
      build d = Except.error e →
      (∃ msg, reindexImpl m registry build docsetIds = Except.error msg) ∧
      (reindexStep m registry build docsetIds).1 = m) ∧
    (∀ (m : ManagerM) (registry : List DocsetM)
        (build : DocsetM → Except String DocsetIndexM)
        (docsetIds : Option (List String)) (m2 : ManagerM),
      reindexImpl m registry build docsetIds = Except.ok m2 →
      ∀ d ∈ registry.filter (fun x => x.enabled),
        (needsRebuild docsetIds d = true ∨ prevIndexOf m.state d.docset_id = none) →
        ∃ idx, build d = Except.ok idx) := by
  constructor
  · intro m registry build docsetIds d e hmem hinv hb
    have herr : ∃ msg, reindexImpl m registry build docsetIds = Except.error msg := by
      unfold reindexImpl
      by_cases hemp : (registry.filter (fun x => x.enabled)).isEmpty
      · exact ⟨_, by rw [if_pos hemp]⟩
      · rw [if_neg hemp]
        by_cases hunk : hasUnknownIds (registry.filter (fun x => x.enabled)) docsetIds = true
        · exact ⟨_, by rw [if_pos hunk]⟩
        · rw [if_neg hunk]
          obtain ⟨msg, hmsg⟩ := @buildLoop_error m.state build docsetIds d _ hmem
            (fun idx hidx => by rw [buildOne_error hinv hb] at hidx; cases hidx)
          exact ⟨msg, by rw [hmsg]⟩
    refine ⟨herr, ?_⟩
    obtain ⟨msg, hmsg⟩ := herr
    unfold reindexStep
    rw [hmsg]
  · intro m registry build docsetIds m2 hok d hmem hinv
    unfold reindexImpl at hok
    by_cases hemp : (registry.filter (fun x => x.enabled)).isEmpty
    · rw [if_pos hemp] at hok; cases hok
    · rw [if_neg hemp] at hok
      by_cases hunk : hasUnknownIds (registry.filter (fun x => x.enabled)) docsetIds = true
      · rw [if_pos hunk] at hok; cases hok
      · rw [if_neg hunk] at hok
        cases hbl : buildLoop m.state build docsetIds (registry.filter (fun x => x.enabled)) with
        | error msg => rw [hbl] at hok; cases hok
        | ok res =>
          obtain ⟨idx, hidx⟩ := buildLoop_ok_mem hbl d hmem
          rcases hinv with hinv | hinv
          · refine ⟨idx, ?_⟩
            unfold buildOne at hidx
            rw [hinv] at hidx
            simpa using hidx
          · by_cases hn : needsRebuild docsetIds d
            · refine ⟨idx, ?_⟩
              unfold buildOne at hidx
              rw [hn] at hidx
              simpa using hidx
            · refine ⟨idx, ?_⟩
              unfold buildOne at hidx
              simp only [hn] at hidx
              rw [hinv] at hidx
              simpa using hidx

theorem claim_C3_witness :
    ((⟨"a", "/r", [], [], none, true⟩ : DocsetM) ∈
        ([⟨"a", "/r", [], [], none, true⟩] : List DocsetM).filter (fun x => x.enabled)) ∧
    ((∃ msg, reindexImpl ⟨0, none, [], [], []⟩ [⟨"a", "/r", [], [], none, true⟩]
        (fun _ => Except.error "boom") none = Except.error msg) ∧
      (reindexStep ⟨0, none, [], [], []⟩ [⟨"a", "/r", [], [], none, true⟩]
        (fun _ => Except.error "boom") none).1 = ⟨0, none, [], [], []⟩) :=
  ⟨by decide,
   claim_C3_no_partial_publish.1 ⟨0, none, [], [], []⟩ [⟨"a", "/r", [], [], none, true⟩]
     (fun _ => Except.error "boom") none ⟨"a", "/r", [], [], none, true⟩ "boom"
     (by decide) (Or.inl rfl) rfl⟩

/-! ### Snapshot staleness (claim C4) -/

/-- Claim C4: on snapshot load, a schema version other than 1 is a hard
error regardless of `auto_index`; a signature differing from the SHA-1 of
(absolute registry path, registry bytes, the parameter string) is stale:
with `auto_index` on the loader reports no snapshot and `ensure_ready`
performs a full rebuild, with it off a hard error is raised.  Changing any
byte of the registry file changes the hashed input, hence (modulo SHA-1
collisions) the signature. -/
theorem claim_C4_snapshot_staleness :
    (∀ (s : SettingsM) (snap : IndexSnapshotM), s.hasSnapshotPath = true →
        snap.schema_version ≠ 1 →
        loadSnapshot s (DiskSnapshot.good snap)
          = Except.error "Index snapshot schema mismatch") ∧
    (∀ (s : SettingsM) (snap : IndexSnapshotM), s.hasSnapshotPath = true →
        snap.schema_version = 1 → snap.signature ≠ snapshotSignature s →
        (s.autoIndex = true →
          loadSnapshot s (DiskSnapshot.good snap) = Except.ok false ∧
          ensureReady s (DiskSnapshot.good snap) = Except.ok ReadyAction.fullRebuild) ∧
        (s.autoIndex = false →
          loadSnapshot s (DiskSnapshot.good snap)
              = Except.error "Index snapshot signature mismatch" ∧
          ensureReady s (DiskSnapshot.good snap)
              = Except.error "Index snapshot signature mismatch")) ∧
    (∀ (s : SettingsM) (b2 : List UInt8), b2 ≠ s.docsetsFileBytes →
        snapshotSignatureInput { s with docsetsFileBytes := b2 }
          ≠ snapshotSignatureInput s) := by
  refine ⟨?_, ?_, ?_⟩
  · intro s snap hpath hschema
    unfold loadSnapshot
    rw [hpath]
    simp [hschema]
  · intro s snap hpath hschema hsig
    constructor
    · intro hauto
      have hload : loadSnapshot s (DiskSnapshot.good snap) = Except.ok false := by
        unfold loadSnapshot
        rw [hpath]
        simp [hschema, hsig, hauto]
      refine ⟨hload, ?_⟩
      unfold ensureReady
      rw [hload, hauto]
      rfl
    · intro hauto
      have hload : loadSnapshot s (DiskSnapshot.good snap)
          = Except.error "Index snapshot signature mismatch" := by
        unfold loadSnapshot
        rw [hpath]
        simp [hschema, hsig, hauto]
      refine ⟨hload, ?_⟩
      unfold ensureReady
      rw [hload]
  · intro s b2 hb2
    simp only [snapshotSignatureInput]
    intro heq
    exact hb2 (List.append_cancel_left (List.append_cancel_right heq))

theorem claim_C4_witness :
    ((⟨2, "s", ⟨0, [], [], []⟩⟩ : IndexSnapshotM).schema_version ≠ 1 ∧
      loadSnapshot ⟨"/reg.toml", [1, 2, 3], "m", 280, 60, true, true⟩
          (DiskSnapshot.good ⟨2, "s", ⟨0, [], [], []⟩⟩)
        = Except.error "Index snapshot schema mismatch") ∧
    (("" : String) ≠ snapshotSignature ⟨"/reg.toml", [1, 2, 3], "m", 280, 60, true, true⟩ ∧
      loadSnapshot ⟨"/reg.toml", [1, 2, 3], "m", 280, 60, true, true⟩
          (DiskSnapshot.good ⟨1, "", ⟨0, [], [], []⟩⟩) = Except.ok false ∧
      ensureReady ⟨"/reg.toml", [1, 2, 3], "m", 280, 60, true, true⟩
          (DiskSnapshot.good ⟨1, "", ⟨0, [], [], []⟩⟩) = Except.ok ReadyAction.fullRebuild) ∧
    (([9, 2, 3] : List UInt8) ≠ [1, 2, 3] ∧
      snapshotSignatureInput ⟨"/reg.toml", [9, 2, 3], "m", 280, 60, true, true⟩
        ≠ snapshotSignatureInput ⟨"/reg.toml", [1, 2, 3], "m", 280, 60, true, true⟩) := by
  have hsig : ("" : String) ≠ snapshotSignature ⟨"/reg.toml", [1, 2, 3], "m", 280, 60, true, true⟩ := by
    decide
  refine ⟨⟨by decide, claim_C4_snapshot_staleness.1 _ _ rfl (by decide)⟩, ?_, ?_⟩
  · have h := (claim_C4_snapshot_staleness.2.1 ⟨"/reg.toml", [1, 2, 3], "m", 280, 60, true, true⟩
        ⟨1, "", ⟨0, [], [], []⟩⟩ rfl rfl hsig).1 rfl
    exact ⟨hsig, h.1, h.2⟩
  · exact ⟨by decide,
      claim_C4_snapshot_staleness.2.2 ⟨"/reg.toml", [1, 2, 3], "m", 280, 60, true, true⟩
        [9, 2, 3] (by decide)⟩

/-! ### The stable descending sort (Python `sorted(..., reverse=True)`) -/

section SortFacts

variable {α β : Type _} [LinearOrder β] (f : α → β)

theorem insSortedDesc_perm (x : α) (l : List α) :
    (insSortedDesc f x l).Perm (x :: l) := by
  induction l with
  | nil => exact List.Perm.refl _
  | cons y ys ih =>
    unfold insSortedDesc
    by_cases h : f x < f y
    · rw [if_pos h]
      exact (ih.cons y).trans (List.Perm.swap x y ys)
    · rw [if_neg h]

theorem sortByDesc_perm (l : List α) : (sortByDesc f l).Perm l := by
  induction l with
  | nil => exact List.Perm.refl _
  | cons x xs ih =>
    unfold sortByDesc
    exact (insSortedDesc_perm f x (sortByDesc f xs)).trans (ih.cons x)

theorem insSortedDesc_sorted (x : α) {l : List α}
    (hl : l.Pairwise (fun a b => f b ≤ f a)) :
    (insSortedDesc f x l).Pairwise (fun a b => f b ≤ f a) := by
  induction l with
  | nil => simp [insSortedDesc]
  | cons y ys ih =>
    rcases List.pairwise_cons.1 hl with ⟨hy, hys⟩
    unfold insSortedDesc
    by_cases h : f x < f y
    · rw [if_pos h]
      refine List.pairwise_cons.2 ⟨?_, ih hys⟩
      intro z hz
      have hz2 : z ∈ x :: ys := (insSortedDesc_perm f x ys).mem_iff.1 hz
      rcases List.mem_cons.1 hz2 with rfl | hz2
      · exact le_of_lt h
      · exact hy z hz2
    · rw [if_neg h]
      refine List.pairwise_cons.2 ⟨?_, hl⟩
      intro z hz
      rcases List.mem_cons.1 hz with rfl | hz2
      · exact not_lt.1 h
      · exact le_trans (hy z hz2) (not_lt.1 h)

theorem sortByDesc_sorted (l : List α) :
    (sortByDesc f l).Pairwise (fun a b => f b ≤ f a) := by
  induction l with
  | nil => simp [sortByDesc]
  | cons x xs ih =>
    unfold sortByDesc
    exact insSortedDesc_sorted f x ih

/-- Stability: among elements of equal key, the sorted list preserves the
original order (the defining property of Python's stable sort). -/
theorem insSortedDesc_filter (x : α) (l : List α) (k : β) :
    (insSortedDesc f x l).filter (fun a => decide (f a = k))
      = ((if f x = k then [x] else []) ++ l.filter (fun a => decide (f a = k))) := by
  induction l with
  | nil => by_cases h : f x = k <;> simp [insSortedDesc, h]
  | cons y ys ih =>
    unfold insSortedDesc
    by_cases h : f x < f y
    · rw [if_pos h]
      by_cases hy : f y = k
      · have hx : ¬ f x = k := by
          intro hxk
          rw [hxk, ← hy] at h
          exact absurd h (lt_irrefl _)
        simp [List.filter_cons, hy, ih, hx]
      · simp [List.filter_cons, hy, ih]
    · rw [if_neg h]
      by_cases hx : f x = k <;> by_cases hy : f y = k <;>
        simp [List.filter_cons, hx, hy]

theorem sortByDesc_filter (l : List α) (k : β) :
    (sortByDesc f l).filter (fun a => decide (f a = k))
      = l.filter (fun a => decide (f a = k)) := by
  induction l with
  | nil => rfl
  | cons x xs ih =>
    unfold sortByDesc
    rw [insSortedDesc_filter, ih]
    by_cases hx : f x = k <;> simp [List.filter_cons, hx]

end SortFacts

/-! ### Router claims (C7) -/

theorem lookup_mem {α β : Type _} [BEq α] [LawfulBEq α] :
    ∀ {l : List (α × β)} {k : α} {v : β}, l.lookup k = some v → (k, v) ∈ l := by
  intro l
  induction l with
  | nil => intro k v h; simp [List.lookup] at h
  | cons p ps ih =>
    intro k v h
    cases hk : k == p.1 with
    | true =>
      simp only [List.lookup, hk] at h
      cases h
      have hkp : k = p.1 := eq_of_beq hk
      subst hkp
      exact List.mem_cons.2 (Or.inl Prod.mk.eta)
    | false =>
      simp only [List.lookup, hk] at h
      exact List.mem_cons.2 (Or.inr (ih h))

theorem routeScoreParts_zero {q : String} {sourceHint : Option String}
    {depsL : List String} {docsetId : String} {docset : DocsetM}
    (h : (routeScoreParts q sourceHint depsL docsetId docset).1 = 0) :
    (routeScoreParts q sourceHint depsL docsetId docset).2 = [] := by
  simp only [routeScoreParts] at h ⊢
  generalize hg : (match sourceHint with
    | some hint => decide (hint ≠ "") && decide (lowerStr hint = lowerStr docsetId)
    | none => false) = hinted at h ⊢
  cases hinted with
  | true => simp at h
  | false =>
    simp only [Bool.false_eq_true, if_false, List.nil_append] at h ⊢
    simp at h
    have h1 : docset.keywords.filter (fun k => isSubstr (lowerStr k) q) = [] := by
      rw [List.filter_eq_nil_iff]
      intro a ha
      simp [h.1.1 a ha]
    have h2 : docset.tags.filter (fun t => isSubstr (lowerStr t) q) = [] := by
      rw [List.filter_eq_nil_iff]
      intro a ha
      simp [h.1.2 a ha]
    have h3 : docset.keywords.filter
        (fun k => depsL.any (fun d => isSubstr (lowerStr k) d)) = [] := by
      rw [List.filter_eq_nil_iff]
      intro a ha hx
      rw [List.any_eq_true] at hx
      obtain ⟨x, hx1, hx2⟩ := hx
      rw [h.2 a ha x hx1] at hx2
      cases hx2
    rw [h1, h2, h3]
    simp

theorem reasonOf_nil : reasonOf [] = "fallback" := by
  decide

/-- Claim C7: the router sorts the per-docset scores descending, stably
(ties keep the original map iteration order), keeps strictly positive
scores truncated to `max_k`, falls back to the first `max_k` registry ids
with reason `fallback` when no score is positive; on
A(keywords=pandas) / B(tags=python) with query `how do I use pandas`,
A ranks above B and is the only selection, and `source_hint = B` inverts
the ordering. -/
theorem claim_C7_routing :
    (∀ (docsets : List (String × DocsetM)) (query : String) (sourceHint : Option String)
        (deps : List String),
      (sortByDesc (fun p : String × Nat => p.2)
          (routeScores docsets query sourceHint deps)).Perm
        (routeScores docsets query sourceHint deps) ∧
      (sortByDesc (fun p : String × Nat => p.2)
          (routeScores docsets query sourceHint deps)).Pairwise (fun a b => b.2 ≤ a.2) ∧
      (∀ k : Nat, (sortByDesc (fun p : String × Nat => p.2)
            (routeScores docsets query sourceHint deps)).filter (fun p => decide (p.2 = k))
          = (routeScores docsets query sourceHint deps).filter (fun p => decide (p.2 = k)))) ∧
    (∀ (docsets : List (String × DocsetM)) (query : String) (sourceHint : Option String)
        (deps : List String) (maxK : Nat),
      (routeDocsets docsets query sourceHint deps maxK).selected_docsets.length ≤ maxK) ∧
    (∀ (docsets : List (String × DocsetM)) (query : String) (sourceHint : Option String)
        (deps : List String) (maxK : Nat),
      (∃ p ∈ routeScores docsets query sourceHint deps, 0 < p.2) →
      ∀ i ∈ (routeDocsets docsets query sourceHint deps maxK).selected_docsets,
        ∃ p ∈ routeScores docsets query sourceHint deps, p.1 = i ∧ 0 < p.2) ∧
    (∀ (docsets : List (String × DocsetM)) (query : String) (sourceHint : Option String)
        (deps : List String) (maxK : Nat),
      (∀ p ∈ routeScores docsets query sourceHint deps, p.2 = 0) →
      (routeDocsets docsets query sourceHint deps maxK).selected_docsets
          = (docsets.map (fun p => p.1)).take maxK ∧
      (∀ pr ∈ (routeDocsets docsets query sourceHint deps maxK).reasons,
        pr.2 = "fallback")) ∧
    ((routeDocsets [("A", ⟨"A", "/a", [], ["pandas"], none, true⟩),
        ("B", ⟨"B", "/b", ["python"], [], none, true⟩)]
        "how do I use pandas" none [] 3).selected_docsets = ["A"] ∧
      sortByDesc (fun p : String × Nat => p.2)
          (routeScores [("A", ⟨"A", "/a", [], ["pandas"], none, true⟩),
            ("B", ⟨"B", "/b", ["python"], [], none, true⟩)]
            "how do I use pandas" none []) = [("A", 10), ("B", 0)] ∧
      (routeDocsets [("A", ⟨"A", "/a", [], ["pandas"], none, true⟩),
        ("B", ⟨"B", "/b", ["python"], [], none, true⟩)]
        "how do I use pandas" none [] 3).reasons = [("A", "keywords:pandas")] ∧
      (routeDocsets [("A", ⟨"A", "/a", [], ["pandas"], none, true⟩),
        ("B", ⟨"B", "/b", ["python"], [], none, true⟩)]
        "how do I use pandas" (some "B") [] 3).selected_docsets = ["B", "A"] ∧
      sortByDesc (fun p : String × Nat => p.2)
          (routeScores [("A", ⟨"A", "/a", [], ["pandas"], none, true⟩),
            ("B", ⟨"B", "/b", ["python"], [], none, true⟩)]
            "how do I use pandas" (some "B") []) = [("B", 100), ("A", 10)]) := by
  refine ⟨?_, ?_, ?_, ?_, ?_⟩
  · intro docsets query sourceHint deps
    exact ⟨sortByDesc_perm _ _, sortByDesc_sorted _ _, fun k => sortByDesc_filter _ _ k⟩
  · intro docsets query sourceHint deps maxK
    unfold routeDocsets
    by_cases hsel : (((sortByDesc (fun p : String × Nat => p.2)
        (routeScores docsets query sourceHint deps)).filter (fun p => 0 < p.2)).map
          (fun p => p.1) |>.take maxK).isEmpty
    · simp only [hsel, if_true]
      exact List.length_take_le maxK _
    · simp only [hsel, if_false]
      exact List.length_take_le maxK _
  · intro docsets query sourceHint deps maxK hpos i hi
    unfold routeDocsets at hi
    set sorted := sortByDesc (fun p : String × Nat => p.2)
        (routeScores docsets query sourceHint deps) with hsorted
    set selected := ((sorted.filter (fun p => 0 < p.2)).map (fun p => p.1)).take maxK
        with hselected
    by_cases hsel : selected.isEmpty
    · obtain ⟨p, hp, hp0⟩ := hpos
      exfalso
      have hpmem : p ∈ sorted.filter (fun p => 0 < p.2) := by
        rw [List.mem_filter]
        exact ⟨(sortByDesc_perm (fun p : String × Nat => p.2) _).mem_iff.2 hp, by simpa using hp0⟩
      have hne : (sorted.filter (fun p => 0 < p.2)).map (fun p => p.1) ≠ [] := by
        intro hcon
        rw [List.map_eq_nil_iff] at hcon
        rw [hcon] at hpmem
        simp at hpmem
      rcases List.take_eq_nil_iff.1 (List.isEmpty_iff.1 hsel) with hk | hk
      · -- maxK = 0: then the fallback take is also [], contradicting hi ∈ chosen
        simp only [hselected, hsel, if_true] at hi
        rw [hk] at hi
        simp at hi
      · exact hne hk
    · simp only [hsel, if_false] at hi
      have hi2 : i ∈ (sorted.filter (fun p => 0 < p.2)).map (fun p => p.1) :=
        List.take_subset _ _ hi
      obtain ⟨p, hp, hpi⟩ := List.mem_map.1 hi2
      rw [List.mem_filter] at hp
      exact ⟨p, (sortByDesc_perm (fun p : String × Nat => p.2) _).mem_iff.1 hp.1,
        hpi, by simpa using hp.2⟩
  · intro docsets query sourceHint deps maxK hzero
    have hfilter : (sortByDesc (fun p : String × Nat => p.2)
        (routeScores docsets query sourceHint deps)).filter (fun p => 0 < p.2) = [] := by
      rw [List.filter_eq_nil_iff]
      intro p hp
      have := hzero p ((sortByDesc_perm (fun p : String × Nat => p.2) _).mem_iff.1 hp)
      simp [this]
    constructor
    · simp only [routeDocsets]
      rw [hfilter]
      simp
    · intro pr hpr
      simp only [routeDocsets] at hpr
      rw [hfilter] at hpr
      simp only [List.map_nil, List.take_nil, List.isEmpty_nil, if_true] at hpr
      obtain ⟨i, hi, hlook⟩ := List.mem_filterMap.1 hpr
      cases hlk : (routeReasons docsets query sourceHint deps).lookup i with
      | none => rw [hlk] at hlook; cases hlook
      | some r =>
        rw [hlk] at hlook
        cases hlook
        have hmem := lookup_mem hlk
        obtain ⟨q2, hq2, hq2e⟩ := List.mem_map.1 hmem
        have hscore : (q2.1, (routeScoreParts (lowerStr query) sourceHint
            (deps.map lowerStr) q2.1 q2.2).1) ∈ routeScores docsets query sourceHint deps := by
          unfold routeScores
          exact List.mem_map.2 ⟨q2, hq2, rfl⟩
        have h0 := hzero _ hscore
        simp only at h0
        have hparts := routeScoreParts_zero h0
        have : r = reasonOf (routeScoreParts (lowerStr query) sourceHint
            (deps.map lowerStr) q2.1 q2.2).2 := by
          have := congrArg Prod.snd hq2e
          simpa using this.symm
        rw [this, hparts, reasonOf_nil]
  · exact ⟨by decide, by decide, by decide, by decide, by decide⟩

theorem claim_C7_witness :
    ((∃ p ∈ routeScores [("A", ⟨"A", "/a", [], ["pandas"], none, true⟩)]
        "how do I use pandas" none [], 0 < p.2) ∧
      ∀ i ∈ (routeDocsets [("A", ⟨"A", "/a", [], ["pandas"], none, true⟩)]
          "how do I use pandas" none [] 3).selected_docsets,
        ∃ p ∈ routeScores [("A", ⟨"A", "/a", [], ["pandas"], none, true⟩)]
            "how do I use pandas" none [], p.1 = i ∧ 0 < p.2) ∧
    ((∀ p ∈ routeScores [("A", ⟨"A", "/a", [], ["pandas"], none, true⟩)]
        "zzz" none [], p.2 = 0) ∧
      ((routeDocsets [("A", ⟨"A", "/a", [], ["pandas"], none, true⟩)]
          "zzz" none [] 3).selected_docsets
          = (([("A", (⟨"A", "/a", [], ["pandas"], none, true⟩ : DocsetM))].map
              (fun p => p.1)).take 3) ∧
        ∀ pr ∈ (routeDocsets [("A", ⟨"A", "/a", [], ["pandas"], none, true⟩)]
            "zzz" none [] 3).reasons, pr.2 = "fallback")) :=
  ⟨⟨by decide, claim_C7_routing.2.2.1 _ "how do I use pandas" none [] 3 (by decide)⟩,
   ⟨by decide, claim_C7_routing.2.2.2.1 _ "zzz" none [] 3 (by decide)⟩⟩

/-! ### Fusion claims (C8) -/

theorem minmaxQ_length (v : List ℚ) : (minmaxQ v).length = v.length := by
  cases v with
  | nil => rfl
  | cons x xs =>
    simp only [minmaxQ]
    split <;> simp

theorem zipWith_map_fst {α β γ : Type _} (f : β → γ) :
    ∀ (cs : List α) (ns : List β), cs.length = ns.length →
      (List.zipWith (fun c bv => (f bv, c)) cs ns).map Prod.fst = ns.map f := by
  intro cs
  induction cs with
  | nil =>
    intro ns h
    cases ns with
    | nil => rfl
    | cons n ns => simp at h
  | cons c cs ih =>
    intro ns h
    cases ns with
    | nil => simp at h
    | cons n ns => simp [ih ns (by simpa using h)]

theorem mem_zipWith {α β γ : Type _} {f : α → β → γ} :
    ∀ {as : List α} {bs : List β} {z : γ}, z ∈ List.zipWith f as bs →
      ∃ i, ∃ ha : i < as.length, ∃ hb : i < bs.length,
        z = f (as.get ⟨i, ha⟩) (bs.get ⟨i, hb⟩) := by
  intro as
  induction as with
  | nil => intro bs z h; simp at h
  | cons a as ih =>
    intro bs z h
    cases bs with
    | nil => simp at h
    | cons b bs =>
      rw [List.zipWith_cons_cons] at h
      rcases List.mem_cons.1 h with rfl | h
      · exact ⟨0, by simp, by simp, rfl⟩
      · obtain ⟨i, ha, hb, he⟩ := ih h
        exact ⟨i + 1, by simpa using Nat.succ_lt_succ ha,
          by simpa using Nat.succ_lt_succ hb, by simpa using he⟩

/-- Claim C8: both score vectors are min-max normalised independently over
the pool; a vector whose spread is below `1e-6` normalises to all zeros (a
single candidate therefore scores 0); the final score is
`0.45 * bm25_norm + 0.55 * vec_norm`; the results are the candidates sorted
by descending final score, and `_search_uncached` truncates to the request
override (which the transport layer bounds by 20) or to `results_top_k`. -/
theorem claim_C8_fusion :
    (∀ (x : ℚ) (xs : List ℚ),
        (xs.foldl max x - xs.foldl min x < 1 / 1000000 →
          minmaxQ (x :: xs) = List.replicate (x :: xs).length 0) ∧
        (¬ xs.foldl max x - xs.foldl min x < 1 / 1000000 →
          minmaxQ (x :: xs) = (x :: xs).map
            (fun q => (q - xs.foldl min x) / (xs.foldl max x - xs.foldl min x)))) ∧
    (∀ c : CandidateM, (rerankCandidates [c]).map (fun r => r.score) = [0]) ∧
    (∀ cands : List CandidateM, cands ≠ [] →
        ((rerankCandidates cands).map (fun r => r.score)).Perm (fusedScores cands) ∧
        (rerankCandidates cands).Pairwise (fun a b => b.score ≤ a.score) ∧
        (∀ r ∈ rerankCandidates cands, ∃ i, ∃ hf : i < (fusedScores cands).length,
            ∃ hc : i < cands.length,
            r = renderResult ((fusedScores cands).get ⟨i, hf⟩) (cands.get ⟨i, hc⟩))) ∧
    (∀ (cands : List CandidateM) (topK : Option Nat) (rtk : Nat),
        searchResults cands topK rtk
          = (rerankCandidates cands).take (effectiveTopK topK rtk)) ∧
    (∀ (topK : Option Nat) (rtk : Nat), topKFieldValid topK →
        (∀ k, topK = some k → effectiveTopK topK rtk = k ∧ k ≤ 20) ∧
        (topK = none → effectiveTopK topK rtk = rtk)) := by
  refine ⟨?_, ?_, ?_, ?_, ?_⟩
  · intro x xs
    constructor
    · intro h
      unfold minmaxQ
      simp only [h, if_true]
      simp [List.map_const]
      rfl
    · intro h
      unfold minmaxQ
      simp only [h, if_false]
  · intro c
    show ((sortByDesc (fun p => p.1) (List.zipWith
        (fun c bv => ((9 : ℚ) / 20 * bv.1 + (11 : ℚ) / 20 * bv.2, c)) [c]
        ((minmaxQ ([c].map (fun c => c.bm25_score))).zip
          (minmaxQ ([c].map (fun c => c.vector_score)))))).map
        (fun p => renderResult p.1 p.2)).map (fun r => r.score) = [0]
    have hmm : ∀ q : ℚ, minmaxQ [q] = [0] := by
      intro q
      unfold minmaxQ
      norm_num
    simp only [List.map_cons, List.map_nil, hmm]
    show ((sortByDesc (fun p => p.1) [((9 : ℚ) / 20 * 0 + (11 : ℚ) / 20 * 0, c)]).map
        (fun p => renderResult p.1 p.2)).map (fun r => r.score) = [0]
    norm_num [sortByDesc, insSortedDesc, renderResult]
  · intro cands hne
    obtain ⟨c0, cs0, rfl⟩ := List.exists_cons_of_ne_nil hne
    set ns := (minmaxQ ((c0 :: cs0).map (fun c => c.bm25_score))).zip
        (minmaxQ ((c0 :: cs0).map (fun c => c.vector_score))) with hns
    have hlen : (c0 :: cs0).length = ns.length := by
      rw [hns, List.length_zip]
      simp [minmaxQ_length]
    set w : ℚ × ℚ → ℚ := fun bv => (9 : ℚ) / 20 * bv.1 + (11 : ℚ) / 20 * bv.2 with hw
    set scored := List.zipWith (fun c bv => (w bv, c)) (c0 :: cs0) ns with hscored
    have hrr : rerankCandidates (c0 :: cs0)
        = (sortByDesc (fun p => p.1) scored).map (fun p => renderResult p.1 p.2) := rfl
    have hfused : fusedScores (c0 :: cs0) = ns.map w := rfl
    refine ⟨?_, ?_, ?_⟩
    · rw [hrr, List.map_map]
      have hmc : ((fun r : SearchResultM => r.score) ∘ fun p : ℚ × CandidateM =>
          renderResult p.1 p.2) = fun p : ℚ × CandidateM => p.1 := rfl
      rw [hmc]
      have hperm := (sortByDesc_perm (fun p : ℚ × CandidateM => p.1) scored).map
          (fun p : ℚ × CandidateM => p.1)
      refine hperm.trans ?_
      have : scored.map (fun p : ℚ × CandidateM => p.1) = ns.map w := by
        rw [hscored]
        exact zipWith_map_fst w (c0 :: cs0) ns hlen
      rw [this, hfused]
    · rw [hrr]
      exact (sortByDesc_sorted (fun p : ℚ × CandidateM => p.1) scored).map _
        (fun a b hab => hab)
    · intro r hr
      rw [hrr] at hr
      obtain ⟨p, hp, hpr⟩ := List.mem_map.1 hr
      have hpmem : p ∈ scored :=
        (sortByDesc_perm (fun p : ℚ × CandidateM => p.1) scored).mem_iff.1 hp
      rw [hscored] at hpmem
      obtain ⟨i, hc, hn, hpe⟩ := mem_zipWith hpmem
      have hf : i < (fusedScores (c0 :: cs0)).length := by
        rw [hfused, List.length_map]
        exact hn
      refine ⟨i, hf, hc, ?_⟩
      have hget : (fusedScores (c0 :: cs0)).get ⟨i, hf⟩ = w (ns.get ⟨i, hn⟩) := by
        show (ns.map w).get ⟨i, hf⟩ = w (ns.get ⟨i, hn⟩)
        simp
      rw [hget, ← hpr, hpe]
  · intro cands topK rtk
    rfl
  · intro topK rtk hvalid
    constructor
    · intro k hk
      obtain ⟨h1, h2⟩ := hvalid k hk
      subst hk
      unfold effectiveTopK
      simp only
      rw [if_neg (by omega)]
      exact ⟨rfl, h2⟩
    · intro hk
      subst hk
      rfl

theorem claim_C8_witness :
    (((0 : ℚ) - 0 < 1 / 1000000 ∧ minmaxQ [(3 : ℚ)] = List.replicate 1 0)) ∧
    (([(⟨"ds:1", ⟨"ds", "/r", [], [], none, true⟩,
          ⟨"s1", "ds", "f.html", "#", ["T"], "hello", [], []⟩,
          ⟨"ds:1", "s1", 0, "hello"⟩, 1, 2⟩ : CandidateM)] : List CandidateM) ≠ [] ∧
      ((rerankCandidates [⟨"ds:1", ⟨"ds", "/r", [], [], none, true⟩,
          ⟨"s1", "ds", "f.html", "#", ["T"], "hello", [], []⟩,
          ⟨"ds:1", "s1", 0, "hello"⟩, 1, 2⟩]).map (fun r => r.score)).Perm
        (fusedScores [⟨"ds:1", ⟨"ds", "/r", [], [], none, true⟩,
          ⟨"s1", "ds", "f.html", "#", ["T"], "hello", [], []⟩,
          ⟨"ds:1", "s1", 0, "hello"⟩, 1, 2⟩])) ∧
    (topKFieldValid (some 5) ∧ effectiveTopK (some 5) 8 = 5 ∧ (5 : Nat) ≤ 20) := by
  have hvalid : topKFieldValid (some 5) := by
    intro k hk
    cases hk
    exact ⟨by omega, by omega⟩
  refine ⟨?_, ?_, ?_⟩
  · have := (claim_C8_fusion.1 (3 : ℚ) []).1
    exact ⟨by norm_num, by simpa using this (by norm_num)⟩
  · refine ⟨by simp, ?_⟩
    exact (claim_C8_fusion.2.2.1 _ (by simp)).1
  · have h := (claim_C8_fusion.2.2.2.2 (some 5) 8 hvalid).1 5 rfl
    exact ⟨hvalid, h.1, h.2⟩

end DocsEngine
